import Mathlib

/-!
Verification of the `xml-extractor` module (apps/server/src/lib/xml-extractor.ts).

Strings are modelled as `List Char`.  The regex-based source operations are
embedded as explicit scanning functions over character lists:
* the JS regex `<tag>([\s\S]*?)</tag>` (flag `i`) is "first occurrence of the
  opening tag, then first occurrence of the closing tag after it";
* the JS regex `<tag>(.*?)</tag>` (flag `g`, no `s` flag) is a left-to-right
  scan whose matched content must not contain a line terminator;
* `String.prototype.replace` with a string replacement processes the
  `$$`/`$&`/backtick/`$'` escapes of the replacement string.
-/

namespace XmlExtractor

abbrev Str := List Char

/-- Case-sensitive character comparison (JS `===` on characters). -/
def csEq (a b : Char) : Bool := a == b

/-- ASCII lower-casing, as performed by `String.prototype.toLowerCase`
on the ASCII range (the only range the source ever compares). -/
def lowerC (c : Char) : Char :=
  if 65 ≤ c.toNat ∧ c.toNat ≤ 90 then Char.ofNat (c.toNat + 32) else c

/-- Case-insensitive character comparison (regex flag `i` / `toLowerCase`). -/
def ciEq (a b : Char) : Bool := lowerC a == lowerC b

/-- JS line terminators (`.` in a regex without the `s` flag matches
everything except these). -/
def isLineTerminator (c : Char) : Bool :=
  c == '\n' || c == '\r' || c == Char.ofNat 0x2028 || c == Char.ofNat 0x2029

/-- White space as recognised by `String.prototype.trim`. -/
def jsWhitespace (c : Char) : Bool :=
  c == ' ' || c == '\t' || c == '\n' || c == '\r' ||
  c == Char.ofNat 0x0b || c == Char.ofNat 0x0c || c == Char.ofNat 0xa0 ||
  c == Char.ofNat 0x1680 || (0x2000 ≤ c.toNat && c.toNat ≤ 0x200a) ||
  c == Char.ofNat 0x2028 || c == Char.ofNat 0x2029 || c == Char.ofNat 0x202f ||
  c == Char.ofNat 0x205f || c == Char.ofNat 0x3000 || c == Char.ofNat 0xfeff

/-- `String.prototype.trim`. -/
def jsTrim (s : Str) : Str :=
  ((s.dropWhile jsWhitespace).reverse.dropWhile jsWhitespace).reverse

/-- Does `pat` match at the head of `s`, character comparison `eqc`? -/
def prefixBy (eqc : Char → Char → Bool) : Str → Str → Bool
  | [], _ => true
  | _ :: _, [] => false
  | p :: ps, c :: cs => eqc p c && prefixBy eqc ps cs

/-- Index of the first match of `pat` in `s` (`String.prototype.indexOf`,
`RegExp.prototype.test` and leftmost regex matching for literal patterns). -/
def findOcc (eqc : Char → Char → Bool) (pat : Str) : Str → Option Nat
  | [] => if prefixBy eqc pat [] then some 0 else none
  | c :: rest =>
      if prefixBy eqc pat (c :: rest) then some 0
      else (findOcc eqc pat rest).map (· + 1)

/-- `pat` occurs in `s` at index `i`. -/
def OccursAt (eqc : Char → Char → Bool) (pat s : Str) (i : Nat) : Prop :=
  prefixBy eqc pat (s.drop i) = true

/-- `i` is the index of the leftmost occurrence of `pat` in `s`. -/
def FirstOcc (eqc : Char → Char → Bool) (pat s : Str) (i : Nat) : Prop :=
  OccursAt eqc pat s i ∧ ∀ k < i, ¬ OccursAt eqc pat s k

theorem prefixBy_nil_iff (eqc : Char → Char → Bool) (pat : Str) :
    prefixBy eqc pat [] = true ↔ pat = [] := by
  cases pat <;> simp [prefixBy]

theorem findOcc_eq_none (eqc) (pat s : Str) (h : findOcc eqc pat s = none) :
    ∀ k, ¬ OccursAt eqc pat s k := by
  induction s with
  | nil =>
      intro k hk
      unfold findOcc at h
      unfold OccursAt at hk
      simp only [List.drop_nil] at hk
      simp [hk] at h
  | cons c rest ih =>
      intro k hk
      unfold findOcc at h
      by_cases hp : prefixBy eqc pat (c :: rest) = true
      · simp [hp] at h
      · simp [hp] at h
        cases k with
        | zero => exact hp hk
        | succ k' =>
            exact ih h k' hk

theorem findOcc_eq_some (eqc) (pat s : Str) (i : Nat)
    (h : findOcc eqc pat s = some i) : FirstOcc eqc pat s i := by
  induction s generalizing i with
  | nil =>
      unfold findOcc at h
      by_cases hp : prefixBy eqc pat [] = true
      · simp [hp] at h
        subst h
        exact ⟨hp, by omega⟩
      · simp [hp] at h
  | cons c rest ih =>
      unfold findOcc at h
      by_cases hp : prefixBy eqc pat (c :: rest) = true
      · simp [hp] at h
        subst h
        exact ⟨hp, by omega⟩
      · simp [hp] at h
        obtain ⟨j, hj, rfl⟩ := h
        obtain ⟨h1, h2⟩ := ih j hj
        refine ⟨h1, ?_⟩
        intro k hk
        cases k with
        | zero => exact hp
        | succ k' =>
            intro hkk
            exact h2 k' (by omega) hkk

theorem findOcc_prefix (eqc) (pat s : Str) (h : prefixBy eqc pat s = true) :
    findOcc eqc pat s = some 0 := by
  cases s <;> simp [findOcc, h]

theorem findOcc_some_lt (eqc) (pat s : Str) (i : Nat) (hp : pat ≠ [])
    (h : findOcc eqc pat s = some i) : i < s.length := by
  induction s generalizing i with
  | nil =>
      unfold findOcc at h
      rw [if_neg] at h
      · exact absurd h (by simp)
      · simp [prefixBy_nil_iff, hp]
  | cons c rest ih =>
      unfold findOcc at h
      by_cases hpre : prefixBy eqc pat (c :: rest) = true
      · simp [hpre] at h
        subst h
        simp
      · simp [hpre] at h
        obtain ⟨j, hj, rfl⟩ := h
        have := ih j hj
        simp
        omega

theorem prefixBy_refl (eqc) (hrefl : ∀ c, eqc c c = true) (pat r : Str) :
    prefixBy eqc pat (pat ++ r) = true := by
  induction pat with
  | nil => simp [prefixBy]
  | cons p ps ih => simp [prefixBy, hrefl, ih]

theorem csEq_refl : ∀ c, csEq c c = true := by
  intro c; simp [csEq]

theorem ciEq_refl : ∀ c, ciEq c c = true := by
  intro c; simp [ciEq]

/-- `x` blocks `pat`: no match of `pat` can start inside `x`, whatever follows. -/
def Blocks (eqc : Char → Char → Bool) (pat x : Str) : Prop :=
  ∀ rest i, i < x.length → prefixBy eqc pat (x.drop i ++ rest) = false

theorem blocks_append (eqc) (pat x y : Str)
    (hx : Blocks eqc pat x) (hy : Blocks eqc pat y) : Blocks eqc pat (x ++ y) := by
  intro rest i hi
  rcases Nat.lt_or_ge i x.length with h | h
  · have hstep := hx (y ++ rest) i h
    rw [List.drop_append_of_le_length (by omega), List.append_assoc]
    exact hstep
  · have hlen : i - x.length < y.length := by
      simp at hi; omega
    have hstep := hy rest (i - x.length) hlen
    rw [List.drop_append_eq_append_drop, List.drop_eq_nil_of_le (by omega),
      List.nil_append]
    exact hstep

theorem prefixBy_take_of_append (eqc) :
    ∀ (a pat b : Str), prefixBy eqc pat (a ++ b) = true →
      prefixBy eqc (pat.take a.length) a = true := by
  intro a
  induction a with
  | nil => intro pat b _; simp [prefixBy]
  | cons c a' ih =>
      intro pat b h
      cases pat with
      | nil => simp [prefixBy]
      | cons p ps =>
          simp only [prefixBy, List.cons_append, Bool.and_eq_true] at h
          simp only [List.length_cons, List.take_succ_cons, prefixBy, Bool.and_eq_true]
          exact ⟨h.1, ih ps b h.2⟩

theorem prefixBy_of_append_of_le (eqc) (pat a b : Str)
    (h : prefixBy eqc pat (a ++ b) = true) (hle : pat.length ≤ a.length) :
    prefixBy eqc pat a = true := by
  have := prefixBy_take_of_append eqc a pat b h
  rwa [List.take_of_length_le hle] at this

theorem prefixBy_getD_of_append (eqc) :
    ∀ (a pat : Str) (bh : Char) (bt : Str),
      prefixBy eqc pat (a ++ bh :: bt) = true → a.length < pat.length →
      eqc (pat.getD a.length 'A') bh = true := by
  intro a
  induction a with
  | nil =>
      intro pat bh bt h hlt
      cases pat with
      | nil => simp at hlt
      | cons p ps =>
          simp only [List.nil_append, prefixBy, Bool.and_eq_true] at h
          simpa using h.1
  | cons c a' ih =>
      intro pat bh bt h hlt
      cases pat with
      | nil => simp at hlt
      | cons p ps =>
          simp only [prefixBy, List.cons_append, Bool.and_eq_true] at h
          simp only [List.length_cons] at hlt
          simpa using ih ps bh bt h.2 (by omega)

/-- Decidable check that a concrete segment can contain no start of a match. -/
def segChk (eqc : Char → Char → Bool) (pat x : Str) : Bool :=
  (List.range x.length).all fun i => !(prefixBy eqc (pat.take (x.length - i)) (x.drop i))

theorem blocks_of_segChk (eqc) (pat x : Str) (h : segChk eqc pat x = true) :
    Blocks eqc pat x := by
  intro rest i hi
  by_contra hcon
  have hpre : prefixBy eqc pat (x.drop i ++ rest) = true := by
    cases hval : prefixBy eqc pat (x.drop i ++ rest)
    · exact absurd hval hcon
    · rfl
  have htake := prefixBy_take_of_append eqc (x.drop i) pat rest hpre
  rw [List.length_drop] at htake
  simp only [segChk, List.all_eq_true, List.mem_range] at h
  have := h i hi
  rw [htake] at this
  simp at this

theorem blocks_of_charfree (eqc) (p : Char) (ps x : Str)
    (h : ∀ c ∈ x, eqc p c = false) : Blocks eqc (p :: ps) x := by
  intro rest i hi
  cases hd : x.drop i with
  | nil =>
      have : x.length - i = 0 := by
        have := List.length_drop i x
        rw [hd] at this
        simpa using this.symm
      omega
  | cons d rest' =>
      have hdmem : d ∈ x := by
        have : d ∈ x.drop i := by rw [hd]; exact List.mem_cons_self d rest'
        exact List.drop_subset i x this
      simp [prefixBy, h d hdmem]

theorem findOcc_cons (eqc) (pat : Str) (c : Char) (rest : Str) :
    findOcc eqc pat (c :: rest) =
      if prefixBy eqc pat (c :: rest) = true then some 0
      else (findOcc eqc pat rest).map (· + 1) := rfl

theorem findOcc_append_of_blocks (eqc) (pat y : Str) :
    ∀ (x : Str), Blocks eqc pat x →
      findOcc eqc pat (x ++ y) = (findOcc eqc pat y).map (· + x.length) := by
  intro x
  induction x with
  | nil =>
      intro _
      cases h : findOcc eqc pat y <;> simp [h]
  | cons c x' ih =>
      intro hB
      have hhead : prefixBy eqc pat (c :: (x' ++ y)) = false := by
        have := hB y 0 (by simp)
        simpa using this
      have htail : Blocks eqc pat x' := by
        intro rest i hi
        have := hB rest (i + 1) (by simp; omega)
        simpa using this
      rw [List.cons_append, findOcc_cons, hhead]
      simp only [Bool.false_eq_true, if_false]
      rw [ih htail]
      cases h : findOcc eqc pat y with
      | none => simp [h]
      | some v => simp [h]; omega

theorem findOcc_none_of_blocks (eqc) (pat x : Str) (hp : pat ≠ [])
    (h : Blocks eqc pat x) : findOcc eqc pat x = none := by
  have := findOcc_append_of_blocks eqc pat [] x h
  rw [List.append_nil] at this
  rw [this]
  unfold findOcc
  rw [if_neg]
  · simp
  · simp [prefixBy_nil_iff, hp]

theorem findOcc_append_none_safe (eqc) (pat : Str) (yh : Char) (yt : Str)
    (hsafe : ∀ k, 1 ≤ k → k < pat.length → eqc (pat.getD k 'A') yh = false) :
    ∀ (x : Str), findOcc eqc pat x = none →
      findOcc eqc pat (x ++ yh :: yt) =
        (findOcc eqc pat (yh :: yt)).map (· + x.length) := by
  intro x
  induction x with
  | nil =>
      intro _
      cases h : findOcc eqc pat (yh :: yt) <;> simp [h]
  | cons c x' ih =>
      intro hnone
      unfold findOcc at hnone
      by_cases hp : prefixBy eqc pat (c :: x') = true
      · simp [hp] at hnone
      · simp only [hp, Bool.false_eq_true, if_false] at hnone
        have htail : findOcc eqc pat x' = none := by
          cases hfo : findOcc eqc pat x'
          · rfl
          · rw [hfo] at hnone; simp at hnone
        have hhead : prefixBy eqc pat (c :: (x' ++ yh :: yt)) = false := by
          by_contra hcon
          have hpre : prefixBy eqc pat ((c :: x') ++ yh :: yt) = true := by
            cases hval : prefixBy eqc pat ((c :: x') ++ yh :: yt)
            · rw [List.cons_append] at hval; exact absurd hval hcon
            · rfl
          rcases le_or_lt pat.length (c :: x').length with hle | hlt
          · exact hp (prefixBy_of_append_of_le eqc pat (c :: x') (yh :: yt) hpre hle)
          · have hg := prefixBy_getD_of_append eqc (c :: x') pat yh yt hpre hlt
            rw [hsafe (c :: x').length (by simp) hlt] at hg
            simp at hg
        rw [List.cons_append, findOcc_cons, hhead]
        simp only [Bool.false_eq_true, if_false]
        rw [ih htail]
        cases h : findOcc eqc pat (yh :: yt) with
        | none => simp [h]
        | some v => simp [h]; omega

theorem toNat_ofNat_valid (n : Nat) (h : n < 55296) : (Char.ofNat n).toNat = n := by
  have hv : n.isValidChar := Or.inl h
  rw [Char.ofNat, dif_pos hv]
  simp [Char.ofNatAux, Char.toNat, UInt32.toNat, BitVec.toNat_ofNatLt]

theorem lowerC_eq_lt_inv (c : Char) (h : lowerC c = '<') : c = '<' := by
  unfold lowerC at h
  by_cases hc : 65 ≤ c.toNat ∧ c.toNat ≤ 90
  · rw [if_pos hc] at h
    have hn := congrArg Char.toNat h
    rw [toNat_ofNat_valid _ (by omega)] at hn
    have h60 : Char.toNat '<' = 60 := by decide
    rw [h60] at hn
    omega
  · rwa [if_neg hc] at h

theorem ciEq_lt_eq_false (c : Char) (h : c ≠ '<') : ciEq '<' c = false := by
  unfold ciEq
  have h1 : lowerC '<' = '<' := by decide
  rw [h1]
  cases hbe : ('<' == lowerC c)
  · rfl
  · exact absurd (lowerC_eq_lt_inv c (eq_of_beq hbe).symm) h

theorem csEq_eq_false (a c : Char) (h : c ≠ a) : csEq a c = false := by
  unfold csEq
  cases hbe : (a == c)
  · rfl
  · exact absurd (eq_of_beq hbe).symm h

/-- Apostrophe and backtick characters (kept out of literals). -/
def apos : Char := Char.ofNat 39

def backtick : Char := Char.ofNat 96

/-- Fuelled core of `String.prototype.replace(/lit/g, rep)` for a literal
pattern `pat`: leftmost, non-overlapping global replacement, scanning left
to right without revisiting replaced text. -/
def replaceAllF : Nat → Str → Str → Str → Str
  | 0, _, _, _ => []
  | _ + 1, _, _, [] => []
  | fuel + 1, pat, rep, c :: rest =>
      if prefixBy csEq pat (c :: rest) = true then
        rep ++ replaceAllF fuel pat rep (rest.drop (pat.length - 1))
      else
        c :: replaceAllF fuel pat rep rest

def replaceAll (pat rep s : Str) : Str := replaceAllF (s.length + 1) pat rep s

theorem replaceAllF_irrel (pat rep : Str) :
    ∀ fuel1 fuel2 s, s.length < fuel1 → s.length < fuel2 →
      replaceAllF fuel1 pat rep s = replaceAllF fuel2 pat rep s := by
  intro fuel1
  induction fuel1 with
  | zero => intro fuel2 s h1 _; omega
  | succ f ih =>
      intro fuel2 s h1 h2
      cases s with
      | nil =>
          cases fuel2 with
          | zero => omega
          | succ f2 => rfl
      | cons c rest =>
          cases fuel2 with
          | zero => omega
          | succ f2 =>
              simp only [replaceAllF]
              by_cases hpre : prefixBy csEq pat (c :: rest) = true
              · rw [if_pos hpre, if_pos hpre]
                congr 1
                apply ih
                · have := List.length_drop (pat.length - 1) rest
                  simp at h1 ⊢
                  omega
                · have := List.length_drop (pat.length - 1) rest
                  simp at h2 ⊢
                  omega
              · rw [if_neg hpre, if_neg hpre]
                congr 1
                apply ih
                · simp at h1; omega
                · simp at h2; omega

theorem replaceAll_nil (pat rep : Str) : replaceAll pat rep [] = [] := rfl

theorem replaceAll_cons_match (pat rep : Str) (c : Char) (rest : Str)
    (hm : prefixBy csEq pat (c :: rest) = true) :
    replaceAll pat rep (c :: rest) =
      rep ++ replaceAll pat rep (rest.drop (pat.length - 1)) := by
  unfold replaceAll
  rw [show (c :: rest).length + 1 = rest.length + 1 + 1 from by simp]
  simp only [replaceAllF, hm, if_true]
  congr 1
  apply replaceAllF_irrel
  · have := List.length_drop (pat.length - 1) rest
    omega
  · omega

theorem replaceAll_cons_nomatch (pat rep : Str) (c : Char) (rest : Str)
    (hm : prefixBy csEq pat (c :: rest) = false) :
    replaceAll pat rep (c :: rest) = c :: replaceAll pat rep rest := by
  unfold replaceAll
  rw [show (c :: rest).length + 1 = rest.length + 1 + 1 from by simp]
  simp only [replaceAllF, hm, Bool.false_eq_true, if_false]

theorem replaceAll_append_match (pat rep : Str) (hp : pat ≠ []) (rest : Str) :
    replaceAll pat rep (pat ++ rest) = rep ++ replaceAll pat rep rest := by
  cases pat with
  | nil => exact absurd rfl hp
  | cons p ps =>
      rw [List.cons_append,
        replaceAll_cons_match (p :: ps) rep p (ps ++ rest)
          (by rw [← List.cons_append]; exact prefixBy_refl csEq csEq_refl (p :: ps) rest)]
      congr 1
      rw [List.length_cons, Nat.add_sub_cancel, List.drop_left]

theorem replaceAll_append_blocks (pat rep : Str) :
    ∀ (x rest : Str), Blocks csEq pat x →
      replaceAll pat rep (x ++ rest) = x ++ replaceAll pat rep rest := by
  intro x
  induction x with
  | nil => intro rest _; simp
  | cons d x' ih =>
      intro rest hB
      have hhead : prefixBy csEq pat (d :: (x' ++ rest)) = false := by
        have := hB rest 0 (by simp)
        simpa using this
      have htail : Blocks csEq pat x' := by
        intro r i hi
        have := hB r (i + 1) (by simp; omega)
        simpa using this
      rw [List.cons_append, replaceAll_cons_nomatch pat rep d (x' ++ rest) hhead,
        ih rest htail, List.cons_append]

/-- The five XML entities used by the source (`&amp;` `&lt;` `&gt;`
`&quot;` `&apos;`), as character lists. -/
def entAmp : Str := ['&', 'a', 'm', 'p', ';']

def entLt : Str := ['&', 'l', 't', ';']

def entGt : Str := ['&', 'g', 't', ';']

def entQuot : Str := ['&', 'q', 'u', 'o', 't', ';']

def entApos : Str := ['&', 'a', 'p', 'o', 's', ';']

/-- Per-character chunk of `escapeXml`. -/
def escChar (c : Char) : Str :=
  if c = '&' then entAmp
  else if c = '<' then entLt
  else if c = '>' then entGt
  else if c = '"' then entQuot
  else if c = apos then entApos
  else [c]

/-- Concatenation of per-character chunks. -/
def strFlat (f : Char → Str) : Str → Str
  | [] => []
  | c :: rest => f c ++ strFlat f rest

/-- `escapeXml`: replaces, in source order, ampersand first, then the other
four reserved characters (apps/server/src/lib/xml-extractor.ts, lines 46-56). -/
def escapeXml (s : Str) : Str :=
  replaceAll [apos] entApos
    (replaceAll ['"'] entQuot
      (replaceAll ['>'] entGt
        (replaceAll ['<'] entLt
          (replaceAll ['&'] entAmp s))))

/-- `unescapeXml`: restores entities in source order, ampersand last
(apps/server/src/lib/xml-extractor.ts, lines 61-68). -/
def unescapeXml (s : Str) : Str :=
  replaceAll entAmp ['&']
    (replaceAll entLt ['<']
      (replaceAll entGt ['>']
        (replaceAll entQuot ['"']
          (replaceAll entApos [apos] s))))

theorem replaceAll_single (t : Str) (a : Char) :
    ∀ s, replaceAll [a] t s = strFlat (fun c => if c = a then t else [c]) s := by
  intro s
  induction s with
  | nil => rfl
  | cons c rest ih =>
      by_cases hac : a = c
      · subst hac
        rw [replaceAll_cons_match [a] t a rest (by simp [prefixBy, csEq_refl])]
        simp only [List.length_cons, List.length_nil, Nat.zero_add, Nat.sub_self,
          List.drop_zero]
        rw [ih]
        simp [strFlat]
      · rw [replaceAll_cons_nomatch [a] t c rest
          (by simp [prefixBy, csEq_eq_false a c (fun hh => hac hh.symm)])]
        rw [ih]
        simp [strFlat]
        rw [if_neg (fun hh => hac hh.symm)]
        simp

theorem strFlat_append (f : Char → Str) (x y : Str) :
    strFlat f (x ++ y) = strFlat f x ++ strFlat f y := by
  induction x with
  | nil => rfl
  | cons c rest ih => simp [strFlat, ih]

theorem strFlat_comp (f g : Char → Str) :
    ∀ s, strFlat g (strFlat f s) = strFlat (fun c => strFlat g (f c)) s := by
  intro s
  induction s with
  | nil => rfl
  | cons c rest ih =>
      simp only [strFlat, strFlat_append, ih]

theorem strFlat_congr (f g : Char → Str) (h : ∀ c, f c = g c) :
    ∀ s, strFlat f s = strFlat g s := by
  intro s
  induction s with
  | nil => rfl
  | cons c rest ih => simp [strFlat, h c, ih]

theorem strFlat_id : ∀ s : Str, strFlat (fun c => [c]) s = s := by
  intro s
  induction s with
  | nil => rfl
  | cons c rest ih => simp [strFlat, ih]

theorem escapeXml_eq_strFlat (s : Str) : escapeXml s = strFlat escChar s := by
  unfold escapeXml
  rw [replaceAll_single, replaceAll_single, replaceAll_single, replaceAll_single,
    replaceAll_single]
  rw [strFlat_comp, strFlat_comp, strFlat_comp, strFlat_comp]
  apply strFlat_congr
  intro c
  by_cases h1 : c = '&'
  · subst h1; decide
  by_cases h2 : c = '<'
  · subst h2; decide
  by_cases h3 : c = '>'
  · subst h3; decide
  by_cases h4 : c = '"'
  · subst h4; decide
  by_cases h5 : c = apos
  · subst h5; decide
  simp only [escChar, h1, h2, h3, h4, h5, if_false]
  simp [strFlat, h1, h2, h3, h4, h5]

/-- Replacing over a chunked string: every chunk is either the pattern
itself or can contain no start of a match. -/
theorem chunk_replace (pat rep : Str) (hp : pat ≠ []) (f g : Char → Str)
    (hfg : ∀ c, (f c = pat ∧ g c = rep) ∨ (g c = f c ∧ Blocks csEq pat (f c))) :
    ∀ s, replaceAll pat rep (strFlat f s) = strFlat g s := by
  intro s
  induction s with
  | nil => simp [strFlat, replaceAll_nil]
  | cons c rest ih =>
      simp only [strFlat]
      rcases hfg c with ⟨h1, h2⟩ | ⟨h1, h2⟩
      · rw [h1, replaceAll_append_match pat rep hp, ih, h2]
      · rw [replaceAll_append_blocks pat rep (f c) _ h2, ih, h1]

theorem blocks_single (pat : Str) (p : Char) (ps : Str) (hpat : pat = p :: ps)
    (c : Char) (h : c ≠ p) : Blocks csEq pat [c] := by
  subst hpat
  exact blocks_of_charfree csEq p ps [c] (by
    intro d hd
    simp at hd
    rw [hd]
    exact csEq_eq_false p c h)

/-- Chunk maps after each unescaping step. -/
def esc1 (c : Char) : Str := if c = apos then [apos] else escChar c

def esc2 (c : Char) : Str := if c = '"' then ['"'] else esc1 c

def esc3 (c : Char) : Str := if c = '>' then ['>'] else esc2 c

def esc4 (c : Char) : Str := if c = '<' then ['<'] else esc3 c

theorem esc_step1 (s : Str) :
    replaceAll entApos [apos] (strFlat escChar s) = strFlat esc1 s := by
  refine chunk_replace entApos [apos] (by decide) escChar esc1 ?_ s
  intro c
  by_cases h1 : c = '&'
  · subst h1; exact Or.inr ⟨by decide, blocks_of_segChk _ _ _ (by decide)⟩
  by_cases h2 : c = '<'
  · subst h2; exact Or.inr ⟨by decide, blocks_of_segChk _ _ _ (by decide)⟩
  by_cases h3 : c = '>'
  · subst h3; exact Or.inr ⟨by decide, blocks_of_segChk _ _ _ (by decide)⟩
  by_cases h4 : c = '"'
  · subst h4; exact Or.inr ⟨by decide, blocks_of_segChk _ _ _ (by decide)⟩
  by_cases h5 : c = apos
  · subst h5; exact Or.inl ⟨by decide, by decide⟩
  refine Or.inr ⟨by simp [esc1, escChar, h1, h2, h3, h4, h5], ?_⟩
  have hch : escChar c = [c] := by simp [escChar, h1, h2, h3, h4, h5]
  rw [hch]
  exact blocks_single entApos '&' ['a', 'p', 'o', 's', ';'] rfl c h1

theorem esc_step2 (s : Str) :
    replaceAll entQuot ['"'] (strFlat esc1 s) = strFlat esc2 s := by
  refine chunk_replace entQuot ['"'] (by decide) esc1 esc2 ?_ s
  intro c
  by_cases h1 : c = '&'
  · subst h1; exact Or.inr ⟨by decide, blocks_of_segChk _ _ _ (by decide)⟩
  by_cases h2 : c = '<'
  · subst h2; exact Or.inr ⟨by decide, blocks_of_segChk _ _ _ (by decide)⟩
  by_cases h3 : c = '>'
  · subst h3; exact Or.inr ⟨by decide, blocks_of_segChk _ _ _ (by decide)⟩
  by_cases h4 : c = '"'
  · subst h4; exact Or.inl ⟨by decide, by decide⟩
  by_cases h5 : c = apos
  · subst h5
    refine Or.inr ⟨by decide, ?_⟩
    rw [show esc1 apos = [apos] from by decide]
    exact blocks_single entQuot '&' ['q', 'u', 'o', 't', ';'] rfl apos (by decide)
  refine Or.inr ⟨by simp [esc2, esc1, escChar, h1, h2, h3, h4, h5], ?_⟩
  have hch : esc1 c = [c] := by simp [esc1, escChar, h1, h2, h3, h4, h5]
  rw [hch]
  exact blocks_single entQuot '&' ['q', 'u', 'o', 't', ';'] rfl c h1

theorem esc_step3 (s : Str) :
    replaceAll entGt ['>'] (strFlat esc2 s) = strFlat esc3 s := by
  refine chunk_replace entGt ['>'] (by decide) esc2 esc3 ?_ s
  intro c
  by_cases h1 : c = '&'
  · subst h1; exact Or.inr ⟨by decide, blocks_of_segChk _ _ _ (by decide)⟩
  by_cases h2 : c = '<'
  · subst h2; exact Or.inr ⟨by decide, blocks_of_segChk _ _ _ (by decide)⟩
  by_cases h3 : c = '>'
  · subst h3; exact Or.inl ⟨by decide, by decide⟩
  by_cases h4 : c = '"'
  · subst h4
    refine Or.inr ⟨by decide, ?_⟩
    rw [show esc2 '"' = ['"'] from by decide]
    exact blocks_single entGt '&' ['g', 't', ';'] rfl '"' (by decide)
  by_cases h5 : c = apos
  · subst h5
    refine Or.inr ⟨by decide, ?_⟩
    rw [show esc2 apos = [apos] from by decide]
    exact blocks_single entGt '&' ['g', 't', ';'] rfl apos (by decide)
  refine Or.inr ⟨by simp [esc3, esc2, esc1, escChar, h1, h2, h3, h4, h5], ?_⟩
  have hch : esc2 c = [c] := by simp [esc2, esc1, escChar, h1, h2, h3, h4, h5]
  rw [hch]
  exact blocks_single entGt '&' ['g', 't', ';'] rfl c h1

theorem esc_step4 (s : Str) :
    replaceAll entLt ['<'] (strFlat esc3 s) = strFlat esc4 s := by
  refine chunk_replace entLt ['<'] (by decide) esc3 esc4 ?_ s
  intro c
  by_cases h1 : c = '&'
  · subst h1; exact Or.inr ⟨by decide, blocks_of_segChk _ _ _ (by decide)⟩
  by_cases h2 : c = '<'
  · subst h2; exact Or.inl ⟨by decide, by decide⟩
  by_cases h3 : c = '>'
  · subst h3
    refine Or.inr ⟨by decide, ?_⟩
    rw [show esc3 '>' = ['>'] from by decide]
    exact blocks_single entLt '&' ['l', 't', ';'] rfl '>' (by decide)
  by_cases h4 : c = '"'
  · subst h4
    refine Or.inr ⟨by decide, ?_⟩
    rw [show esc3 '"' = ['"'] from by decide]
    exact blocks_single entLt '&' ['l', 't', ';'] rfl '"' (by decide)
  by_cases h5 : c = apos
  · subst h5
    refine Or.inr ⟨by decide, ?_⟩
    rw [show esc3 apos = [apos] from by decide]
    exact blocks_single entLt '&' ['l', 't', ';'] rfl apos (by decide)
  refine Or.inr ⟨by simp [esc4, esc3, esc2, esc1, escChar, h1, h2, h3, h4, h5], ?_⟩
  have hch : esc3 c = [c] := by simp [esc3, esc2, esc1, escChar, h1, h2, h3, h4, h5]
  rw [hch]
  exact blocks_single entLt '&' ['l', 't', ';'] rfl c h1

theorem esc_step5 (s : Str) :
    replaceAll entAmp ['&'] (strFlat esc4 s) = s := by
  have hstep :
      replaceAll entAmp ['&'] (strFlat esc4 s) =
        strFlat (fun c => if c = '&' then ['&'] else esc4 c) s := by
    refine chunk_replace entAmp ['&'] (by decide) esc4 _ ?_ s
    intro c
    by_cases h1 : c = '&'
    · subst h1; exact Or.inl ⟨by decide, by decide⟩
    by_cases h2 : c = '<'
    · subst h2
      refine Or.inr ⟨by decide, ?_⟩
      rw [show esc4 '<' = ['<'] from by decide]
      exact blocks_single entAmp '&' ['a', 'm', 'p', ';'] rfl '<' (by decide)
    by_cases h3 : c = '>'
    · subst h3
      refine Or.inr ⟨by decide, ?_⟩
      rw [show esc4 '>' = ['>'] from by decide]
      exact blocks_single entAmp '&' ['a', 'm', 'p', ';'] rfl '>' (by decide)
    by_cases h4 : c = '"'
    · subst h4
      refine Or.inr ⟨by decide, ?_⟩
      rw [show esc4 '"' = ['"'] from by decide]
      exact blocks_single entAmp '&' ['a', 'm', 'p', ';'] rfl '"' (by decide)
    by_cases h5 : c = apos
    · subst h5
      refine Or.inr ⟨by decide, ?_⟩
      rw [show esc4 apos = [apos] from by decide]
      exact blocks_single entAmp '&' ['a', 'm', 'p', ';'] rfl apos (by decide)
    refine Or.inr ⟨by simp [h1], ?_⟩
    have hch : esc4 c = [c] := by simp [esc4, esc3, esc2, esc1, escChar, h1, h2, h3, h4, h5]
    rw [hch]
    exact blocks_single entAmp '&' ['a', 'm', 'p', ';'] rfl c h1
  rw [hstep]
  rw [strFlat_congr _ (fun c => [c]) ?_ s, strFlat_id]
  intro c
  by_cases h1 : c = '&'
  · rw [h1]; decide
  by_cases h2 : c = '<'
  · rw [h2]; decide
  by_cases h3 : c = '>'
  · rw [h3]; decide
  by_cases h4 : c = '"'
  · rw [h4]; decide
  by_cases h5 : c = apos
  · rw [h5]; decide
  simp [esc4, esc3, esc2, esc1, escChar, h1, h2, h3, h4, h5]

/-- The escape/unescape round trip restores every string
(in particular the order ampersand-first / ampersand-last is consistent). -/
theorem unescapeXml_escapeXml (s : Str) : unescapeXml (escapeXml s) = s := by
  rw [escapeXml_eq_strFlat]
  unfold unescapeXml
  rw [esc_step1, esc_step2, esc_step3, esc_step4, esc_step5]

theorem mem_strFlat (f : Char → Str) :
    ∀ (s : Str) (c : Char), c ∈ strFlat f s → ∃ d ∈ s, c ∈ f d := by
  intro s
  induction s with
  | nil => intro c hc; simp [strFlat] at hc
  | cons d rest ih =>
      intro c hc
      simp only [strFlat, List.mem_append] at hc
      rcases hc with hc | hc
      · exact ⟨d, by simp, hc⟩
      · obtain ⟨d', hd', hcd'⟩ := ih c hc
        exact ⟨d', by simp [hd'], hcd'⟩

/-- Both ends of the string are free of JS whitespace. -/
def NoWsEnds (x : Str) : Prop :=
  (∀ c, x.head? = some c → jsWhitespace c = false) ∧
  (∀ c, x.getLast? = some c → jsWhitespace c = false)

theorem dropWhile_eq_self_of_head (p : Char → Bool) (x : Str)
    (h : ∀ c, x.head? = some c → p c = false) : x.dropWhile p = x := by
  cases x with
  | nil => rfl
  | cons c rest =>
      rw [List.dropWhile_cons, if_neg (by simp [h c rfl])]

theorem jsTrim_eq_self_of_noWsEnds (x : Str) (h : NoWsEnds x) : jsTrim x = x := by
  unfold jsTrim
  rw [dropWhile_eq_self_of_head _ _ h.1]
  rw [dropWhile_eq_self_of_head _ _ (by
    intro c hc
    rw [List.head?_reverse] at hc
    exact h.2 c hc)]
  exact List.reverse_reverse x

theorem getLast?_of_suffix (x y : Str) (hs : x <:+ y) (hx : x ≠ []) :
    y.getLast? = x.getLast? := by
  obtain ⟨t, rfl⟩ := hs
  exact List.getLast?_append_of_ne_nil t hx

theorem head?_dropWhile_false (p : Char → Bool) (l : Str) (c : Char)
    (h : (l.dropWhile p).head? = some c) : p c = false := by
  have hh := List.head?_dropWhile_not p l
  rw [h] at hh
  exact hh

theorem noWsEnds_jsTrim (x : Str) : NoWsEnds (jsTrim x) := by
  unfold jsTrim
  constructor
  · intro c hc
    rw [List.head?_reverse] at hc
    have hzne : (List.reverse (x.dropWhile jsWhitespace)).dropWhile jsWhitespace ≠ [] := by
      intro hnil
      rw [hnil] at hc
      simp at hc
    have h1 := getLast?_of_suffix _ _
      (List.dropWhile_suffix (l := List.reverse (x.dropWhile jsWhitespace)) jsWhitespace) hzne
    rw [hc] at h1
    rw [List.getLast?_reverse] at h1
    exact head?_dropWhile_false jsWhitespace x c h1
  · intro c hc
    rw [List.getLast?_reverse] at hc
    exact head?_dropWhile_false jsWhitespace _ c hc

theorem length_dropWhile_le (p : Char → Bool) (l : Str) :
    (l.dropWhile p).length ≤ l.length :=
  (List.dropWhile_sublist p).length_le

theorem noWsEnds_of_jsTrim_eq (t : Str) (h : jsTrim t = t) : NoWsEnds t := by
  have hlen : (jsTrim t).length = t.length := by rw [h]
  have hle1 : (t.dropWhile jsWhitespace).length ≤ t.length :=
    length_dropWhile_le jsWhitespace t
  have hle2 :
      ((List.reverse (t.dropWhile jsWhitespace)).dropWhile jsWhitespace).length ≤
        (t.dropWhile jsWhitespace).length := by
    have := length_dropWhile_le jsWhitespace (List.reverse (t.dropWhile jsWhitespace))
    simpa using this
  have hlen2 : (jsTrim t).length =
      ((List.reverse (t.dropWhile jsWhitespace)).dropWhile jsWhitespace).length := by
    unfold jsTrim
    simp
  constructor
  · intro c hc
    cases ht : t with
    | nil => rw [ht] at hc; simp at hc
    | cons a rest =>
        rw [ht] at hc
        simp at hc
        by_contra hws
        have hws' : jsWhitespace a = true := by
          cases hval : jsWhitespace a
          · rw [hc] at hval; exact absurd hval hws
          · rfl
        have hdrop : (a :: rest).dropWhile jsWhitespace = rest.dropWhile jsWhitespace := by
          rw [List.dropWhile_cons, if_pos hws']
        have hstep : (t.dropWhile jsWhitespace).length ≤ rest.length := by
          rw [ht, hdrop]
          exact length_dropWhile_le jsWhitespace rest
        have htlen : t.length = rest.length + 1 := by rw [ht]; simp
        omega
  · intro c hc
    rcases List.getLast?_eq_some_iff.mp hc with ⟨ys, hys⟩
    by_contra hws
    have hws' : jsWhitespace c = true := by
      cases hval : jsWhitespace c
      · exact absurd hval hws
      · rfl
    by_cases hfirst : (t.dropWhile jsWhitespace).length = t.length
    · have hdw : t.dropWhile jsWhitespace = t := by
        have hsuf := List.dropWhile_suffix (l := t) jsWhitespace
        exact List.Sublist.eq_of_length hsuf.sublist hfirst
      have hrev : List.reverse t = c :: List.reverse ys := by
        rw [hys]
        simp
      have hdrop2 : (List.reverse t).dropWhile jsWhitespace =
          (List.reverse ys).dropWhile jsWhitespace := by
        rw [hrev, List.dropWhile_cons, if_pos hws']
      have hlt : ((List.reverse t).dropWhile jsWhitespace).length ≤ ys.length := by
        rw [hdrop2]
        have := length_dropWhile_le jsWhitespace (List.reverse ys)
        simpa using this
      have hyslen : ys.length + 1 = t.length := by
        rw [hys]; simp
      rw [hdw] at hlen2
      omega
    · have hne := hlen2
      omega

theorem strFlat_ne_nil (f : Char → Str) (hf : ∀ c, f c ≠ []) (s : Str)
    (hs : s ≠ []) : strFlat f s ≠ [] := by
  cases s with
  | nil => exact absurd rfl hs
  | cons c rest =>
      simp only [strFlat]
      intro hcon
      rcases List.append_eq_nil.mp hcon with ⟨h1, _⟩
      exact hf c h1

theorem strFlat_head? (f : Char → Str) (hf : ∀ c, f c ≠ []) (c : Char) (rest : Str) :
    (strFlat f (c :: rest)).head? = (f c).head? := by
  simp only [strFlat]
  cases hfc : f c with
  | nil => exact absurd hfc (hf c)
  | cons a l => simp

theorem strFlat_getLast? (f : Char → Str) (hf : ∀ c, f c ≠ []) :
    ∀ (s : Str) (hs : s ≠ []) (c : Char), s.getLast? = some c →
      (strFlat f s).getLast? = (f c).getLast? := by
  intro s
  induction s with
  | nil => intro hs; exact absurd rfl hs
  | cons a rest ih =>
      intro _ c hc
      by_cases hrest : rest = []
      · subst hrest
        simp at hc
        subst hc
        simp [strFlat]
      · have hc' : rest.getLast? = some c := by
          cases hr2 : rest with
          | nil => exact absurd hr2 hrest
          | cons b l =>
              rw [hr2] at hc
              rw [List.getLast?_cons_cons] at hc
              exact hc
        simp only [strFlat]
        rw [List.getLast?_append_of_ne_nil _ (strFlat_ne_nil f hf rest hrest)]
        exact ih hrest c hc'

theorem escChar_ne_nil (c : Char) : escChar c ≠ [] := by
  by_cases h1 : c = '&'
  · rw [h1]; decide
  by_cases h2 : c = '<'
  · rw [h2]; decide
  by_cases h3 : c = '>'
  · rw [h3]; decide
  by_cases h4 : c = '"'
  · rw [h4]; decide
  by_cases h5 : c = apos
  · rw [h5]; decide
  simp [escChar, h1, h2, h3, h4, h5]

theorem escChar_head?_ws (a c : Char) (ha : jsWhitespace a = false)
    (hc : (escChar a).head? = some c) : jsWhitespace c = false := by
  by_cases h1 : a = '&'
  · rw [h1] at hc; simp [escChar, entAmp] at hc; rw [← hc]; decide
  by_cases h2 : a = '<'
  · rw [h2] at hc; simp [escChar, entLt] at hc; rw [← hc]; decide
  by_cases h3 : a = '>'
  · rw [h3] at hc; simp [escChar, entGt] at hc; rw [← hc]; decide
  by_cases h4 : a = '"'
  · rw [h4] at hc; simp [escChar, entQuot] at hc; rw [← hc]; decide
  by_cases h5 : a = apos
  · rw [h5] at hc
    have hstep : (escChar apos).head? = some '&' := by decide
    rw [hstep] at hc
    simp at hc
    rw [← hc]; decide
  simp [escChar, h1, h2, h3, h4, h5] at hc
  rw [← hc]; exact ha

theorem escChar_getLast?_ws (a c : Char) (ha : jsWhitespace a = false)
    (hc : (escChar a).getLast? = some c) : jsWhitespace c = false := by
  by_cases h1 : a = '&'
  · rw [h1] at hc
    have hstep : (escChar '&').getLast? = some ';' := by decide
    rw [hstep] at hc; simp at hc; rw [← hc]; decide
  by_cases h2 : a = '<'
  · rw [h2] at hc
    have hstep : (escChar '<').getLast? = some ';' := by decide
    rw [hstep] at hc; simp at hc; rw [← hc]; decide
  by_cases h3 : a = '>'
  · rw [h3] at hc
    have hstep : (escChar '>').getLast? = some ';' := by decide
    rw [hstep] at hc; simp at hc; rw [← hc]; decide
  by_cases h4 : a = '"'
  · rw [h4] at hc
    have hstep : (escChar '"').getLast? = some ';' := by decide
    rw [hstep] at hc; simp at hc; rw [← hc]; decide
  by_cases h5 : a = apos
  · rw [h5] at hc
    have hstep : (escChar apos).getLast? = some ';' := by decide
    rw [hstep] at hc; simp at hc; rw [← hc]; decide
  simp [escChar, h1, h2, h3, h4, h5] at hc
  rw [← hc]; exact ha

theorem escape_noWsEnds (x : Str) (h : NoWsEnds x) : NoWsEnds (escapeXml x) := by
  rw [escapeXml_eq_strFlat]
  constructor
  · intro c hc
    cases x with
    | nil => simp [strFlat] at hc
    | cons a rest =>
        rw [strFlat_head? escChar escChar_ne_nil a rest] at hc
        exact escChar_head?_ws a c (h.1 a rfl) hc
  · intro c hc
    cases hx : x with
    | nil => rw [hx] at hc; simp [strFlat] at hc
    | cons a rest =>
        have hxne : x ≠ [] := by rw [hx]; simp
        cases hb : x.getLast? with
        | none => rw [List.getLast?_eq_none_iff] at hb; exact absurd hb hxne
        | some b =>
            rw [strFlat_getLast? escChar escChar_ne_nil x hxne b hb] at hc
            exact escChar_getLast?_ws b c (h.2 b hb) hc

theorem jsTrim_escape (x : Str) (h : jsTrim x = x) :
    jsTrim (escapeXml x) = escapeXml x :=
  jsTrim_eq_self_of_noWsEnds _ (escape_noWsEnds x (noWsEnds_of_jsTrim_eq x h))

theorem escChar_no_lt (d : Char) : '<' ∉ escChar d := by
  by_cases h1 : d = '&'
  · rw [h1]; decide
  by_cases h2 : d = '<'
  · rw [h2]; decide
  by_cases h3 : d = '>'
  · rw [h3]; decide
  by_cases h4 : d = '"'
  · rw [h4]; decide
  by_cases h5 : d = apos
  · rw [h5]; decide
  simp [escChar, h1, h2, h3, h4, h5]
  intro hcon
  exact h2 hcon.symm

theorem escape_no_lt (x : Str) : '<' ∉ escapeXml x := by
  rw [escapeXml_eq_strFlat]
  intro hmem
  obtain ⟨d, _, hd⟩ := mem_strFlat escChar x '<' hmem
  exact escChar_no_lt d hd

theorem escChar_term (c d : Char) (hmem : c ∈ escChar d)
    (hterm : isLineTerminator c = true) : isLineTerminator d = true := by
  by_cases h1 : d = '&'
  · rw [h1] at hmem
    have hdis : c = '&' ∨ c = 'a' ∨ c = 'm' ∨ c = 'p' ∨ c = ';' := by
      simpa [escChar, entAmp] using hmem
    rcases hdis with rfl | rfl | rfl | rfl | rfl <;> exact absurd hterm (by decide)
  by_cases h2 : d = '<'
  · rw [h2] at hmem
    have hdis : c = '&' ∨ c = 'l' ∨ c = 't' ∨ c = ';' := by
      simpa [escChar, entLt] using hmem
    rcases hdis with rfl | rfl | rfl | rfl <;> exact absurd hterm (by decide)
  by_cases h3 : d = '>'
  · rw [h3] at hmem
    have hdis : c = '&' ∨ c = 'g' ∨ c = 't' ∨ c = ';' := by
      simpa [escChar, entGt] using hmem
    rcases hdis with rfl | rfl | rfl | rfl <;> exact absurd hterm (by decide)
  by_cases h4 : d = '"'
  · rw [h4] at hmem
    have hdis : c = '&' ∨ c = 'q' ∨ c = 'u' ∨ c = 'o' ∨ c = 't' ∨ c = ';' := by
      simpa [escChar, entQuot] using hmem
    rcases hdis with rfl | rfl | rfl | rfl | rfl | rfl <;> exact absurd hterm (by decide)
  by_cases h5 : d = apos
  · rw [h5] at hmem
    rw [show escChar apos = entApos from by decide] at hmem
    have hdis : c = '&' ∨ c = 'a' ∨ c = 'p' ∨ c = 'o' ∨ c = 's' ∨ c = ';' := by
      simpa [entApos] using hmem
    rcases hdis with rfl | rfl | rfl | rfl | rfl | rfl <;> exact absurd hterm (by decide)
  simp [escChar, h1, h2, h3, h4, h5] at hmem
  rw [← hmem]
  exact hterm

theorem escChar_dollar (c d : Char) (hmem : c ∈ escChar d) (hd : c = '$') :
    d = '$' := by
  subst hd
  by_cases h1 : d = '&'
  · rw [h1] at hmem; exact absurd hmem (by decide)
  by_cases h2 : d = '<'
  · rw [h2] at hmem; exact absurd hmem (by decide)
  by_cases h3 : d = '>'
  · rw [h3] at hmem; exact absurd hmem (by decide)
  by_cases h4 : d = '"'
  · rw [h4] at hmem; exact absurd hmem (by decide)
  by_cases h5 : d = apos
  · rw [h5] at hmem; exact absurd hmem (by decide)
  simp [escChar, h1, h2, h3, h4, h5] at hmem
  exact hmem.symm

theorem escape_term (x : Str) (h : ∀ c ∈ x, isLineTerminator c = false) :
    ∀ c ∈ escapeXml x, isLineTerminator c = false := by
  rw [escapeXml_eq_strFlat]
  intro c hc
  obtain ⟨d, hdx, hd⟩ := mem_strFlat escChar x c hc
  cases hval : isLineTerminator c
  · rfl
  · have := escChar_term c d hd hval
    rw [h d hdx] at this
    exact this.symm

theorem escape_no_dollar (x : Str) (h : '$' ∉ x) : '$' ∉ escapeXml x := by
  rw [escapeXml_eq_strFlat]
  intro hmem
  obtain ⟨d, hdx, hd⟩ := mem_strFlat escChar x '$' hmem
  rw [escChar_dollar '$' d hd rfl] at hdx
  exact h hdx

theorem replaceAll_ne_nil (pat rep : Str) (hrep : rep ≠ []) (s : Str)
    (hs : s ≠ []) : replaceAll pat rep s ≠ [] := by
  cases s with
  | nil => exact absurd rfl hs
  | cons c rest =>
      by_cases hm : prefixBy csEq pat (c :: rest) = true
      · rw [replaceAll_cons_match _ _ _ _ hm]
        simp [hrep]
      · rw [replaceAll_cons_nomatch _ _ _ _ (by
          cases hv : prefixBy csEq pat (c :: rest)
          · rfl
          · exact absurd hv hm)]
        simp

theorem replaceAll_head? (pat rep : Str) (hrep : rep ≠ []) (c : Char) (rest : Str) :
    (replaceAll pat rep (c :: rest)).head? = some c ∨
    (replaceAll pat rep (c :: rest)).head? = rep.head? := by
  by_cases hm : prefixBy csEq pat (c :: rest) = true
  · rw [replaceAll_cons_match _ _ _ _ hm]
    right
    cases rep with
    | nil => exact absurd rfl hrep
    | cons r rs => simp
  · rw [replaceAll_cons_nomatch _ _ _ _ (by
      cases hv : prefixBy csEq pat (c :: rest)
      · rfl
      · exact absurd hv hm)]
    left
    simp

theorem replaceAll_getLast? (pat rep : Str) (hrep : rep ≠ []) :
    ∀ (s : Str), s ≠ [] →
      (replaceAll pat rep s).getLast? = s.getLast? ∨
      (replaceAll pat rep s).getLast? = rep.getLast? := by
  have H : ∀ (n : Nat) (s : Str), s.length ≤ n → s ≠ [] →
      (replaceAll pat rep s).getLast? = s.getLast? ∨
      (replaceAll pat rep s).getLast? = rep.getLast? := by
    intro n
    induction n with
    | zero =>
        intro s hlen hne
        cases s with
        | nil => exact absurd rfl hne
        | cons c rest => simp at hlen
    | succ n ih =>
        intro s hlen hne
        cases s with
        | nil => exact absurd rfl hne
        | cons c rest =>
            by_cases hm : prefixBy csEq pat (c :: rest) = true
            · rw [replaceAll_cons_match _ _ _ _ hm]
              by_cases hnil : rest.drop (pat.length - 1) = []
              · rw [hnil, replaceAll_nil, List.append_nil]
                right; rfl
              · have hsub := ih (rest.drop (pat.length - 1))
                  (by
                    have := List.length_drop (pat.length - 1) rest
                    simp at hlen
                    omega) hnil
                rw [List.getLast?_append_of_ne_nil rep
                  (replaceAll_ne_nil pat rep hrep _ hnil)]
                rcases hsub with hsub | hsub
                · left
                  rw [hsub]
                  have hsuffix : rest.drop (pat.length - 1) <:+ c :: rest := by
                    exact (List.drop_suffix _ _).trans (List.suffix_cons c rest)
                  exact (getLast?_of_suffix _ _ hsuffix hnil).symm
                · right
                  exact hsub
            · rw [replaceAll_cons_nomatch _ _ _ _ (by
                cases hv : prefixBy csEq pat (c :: rest)
                · rfl
                · exact absurd hv hm)]
              by_cases hrest : rest = []
              · subst hrest
                rw [replaceAll_nil]
                left; rfl
              · have hsub := ih rest (by simp at hlen; omega) hrest
                have hRne := replaceAll_ne_nil pat rep hrep rest hrest
                have hcons : (c :: replaceAll pat rep rest).getLast? =
                    (replaceAll pat rep rest).getLast? := by
                  rw [show c :: replaceAll pat rep rest = [c] ++ replaceAll pat rep rest
                    from rfl]
                  exact List.getLast?_append_of_ne_nil [c] hRne
                have hcons2 : (c :: rest).getLast? = rest.getLast? := by
                  rw [show c :: rest = [c] ++ rest from rfl]
                  exact List.getLast?_append_of_ne_nil [c] hrest
                rw [hcons, hcons2]
                exact hsub
  intro s
  exact H s.length s (le_refl _)

theorem mem_replaceAll (pat rep : Str) :
    ∀ (s : Str) (c : Char), c ∈ replaceAll pat rep s → c ∈ s ∨ c ∈ rep := by
  have H : ∀ (n : Nat) (s : Str), s.length ≤ n → ∀ c,
      c ∈ replaceAll pat rep s → c ∈ s ∨ c ∈ rep := by
    intro n
    induction n with
    | zero =>
        intro s hlen c hc
        cases s with
        | nil => rw [replaceAll_nil] at hc; simp at hc
        | cons a rest => simp at hlen
    | succ n ih =>
        intro s hlen c hc
        cases s with
        | nil => rw [replaceAll_nil] at hc; simp at hc
        | cons a rest =>
            by_cases hm : prefixBy csEq pat (a :: rest) = true
            · rw [replaceAll_cons_match _ _ _ _ hm] at hc
              rcases List.mem_append.mp hc with hc | hc
              · exact Or.inr hc
              · have hdropsub : rest.drop (pat.length - 1) ⊆ rest :=
                  List.drop_subset _ rest
                have hlen' : (rest.drop (pat.length - 1)).length ≤ n := by
                  have := List.length_drop (pat.length - 1) rest
                  simp at hlen
                  omega
                rcases ih _ hlen' c hc with hin | hin
                · exact Or.inl (by simp [hdropsub hin])
                · exact Or.inr hin
            · rw [replaceAll_cons_nomatch _ _ _ _ (by
                cases hv : prefixBy csEq pat (a :: rest)
                · rfl
                · exact absurd hv hm)] at hc
              rcases List.mem_cons.mp hc with hc | hc
              · exact Or.inl (by simp [hc])
              · rcases ih rest (by simp at hlen; omega) c hc with hin | hin
                · exact Or.inl (by simp [hin])
                · exact Or.inr hin
  intro s
  exact H s.length s (le_refl _)

theorem replaceAll_noWsEnds (pat rep : Str) (hrep : rep ≠ [])
    (hh : ∀ c, rep.head? = some c → jsWhitespace c = false)
    (hl : ∀ c, rep.getLast? = some c → jsWhitespace c = false)
    (x : Str) (h : NoWsEnds x) : NoWsEnds (replaceAll pat rep x) := by
  constructor
  · intro c hc
    cases x with
    | nil => rw [replaceAll_nil] at hc; simp at hc
    | cons a rest =>
        rcases replaceAll_head? pat rep hrep a rest with hv | hv
        · rw [hv] at hc
          simp at hc
          rw [← hc]
          exact h.1 a rfl
        · rw [hv] at hc
          exact hh c hc
  · intro c hc
    cases hx : x with
    | nil => rw [hx, replaceAll_nil] at hc; simp at hc
    | cons a rest =>
        have hxne : x ≠ [] := by rw [hx]; simp
        rcases replaceAll_getLast? pat rep hrep x hxne with hv | hv
        · rw [hv] at hc
          exact h.2 c hc
        · rw [hv] at hc
          exact hl c hc

theorem unescape_noWsEnds (x : Str) (h : NoWsEnds x) : NoWsEnds (unescapeXml x) := by
  unfold unescapeXml
  apply replaceAll_noWsEnds _ _ (by decide) (by decide) (by decide)
  apply replaceAll_noWsEnds _ _ (by decide) (by decide) (by decide)
  apply replaceAll_noWsEnds _ _ (by decide) (by decide) (by decide)
  apply replaceAll_noWsEnds _ _ (by decide) (by decide) (by decide)
  apply replaceAll_noWsEnds _ _ (by decide) (by decide) (by decide)
  exact h

theorem jsTrim_unescape_jsTrim (raw : Str) :
    jsTrim (unescapeXml (jsTrim raw)) = unescapeXml (jsTrim raw) :=
  jsTrim_eq_self_of_noWsEnds _ (unescape_noWsEnds _ (noWsEnds_jsTrim raw))

theorem unescape_term (x : Str) (h : ∀ c ∈ x, isLineTerminator c = false) :
    ∀ c ∈ unescapeXml x, isLineTerminator c = false := by
  unfold unescapeXml
  intro c hc
  have step : ∀ (pat rep y : Str), (∀ d ∈ y, isLineTerminator d = false) →
      (∀ d ∈ rep, isLineTerminator d = false) →
      ∀ d ∈ replaceAll pat rep y, isLineTerminator d = false := by
    intro pat rep y hy hr d hd
    rcases mem_replaceAll pat rep y d hd with hin | hin
    · exact hy d hin
    · exact hr d hin
  exact step _ _ _
    (step _ _ _
      (step _ _ _
        (step _ _ _
          (step _ _ _ h (by decide))
          (by decide))
        (by decide))
      (by decide))
    (by decide) c hc

/-! ### Embedding of the source functions (apps/server/src/lib/xml-extractor.ts) -/

def openTagOf (tag : Str) : Str := '<' :: tag ++ ['>']

def closeTagOf (tag : Str) : Str := '<' :: '/' :: tag ++ ['>']

def implTag : Str := "implemented_features".data

def implOpen : Str := openTagOf implTag

def implClose : Str := closeTagOf implTag

def nameTag : Str := "name".data

def nameOpen : Str := openTagOf nameTag

def nameClose : Str := closeTagOf nameTag

def descTag : Str := "description".data

def descOpen : Str := openTagOf descTag

def descClose : Str := closeTagOf descTag

def featTag : Str := "feature".data

def featOpen : Str := openTagOf featTag

def featClose : Str := closeTagOf featTag

def flTag : Str := "file_locations".data

def locTag : Str := "location".data

def ccEnd : Str := "</core_capabilities>".data

def psEnd : Str := "</project_specification>".data

def nl : Str := ['\n']

def indent2 : Str := [' ', ' ']

/-- `extractXmlSection` (lines 78-95): first case-insensitive non-greedy
match of `<tagName>([\s\S]*?)</tagName>`. -/
def extractXmlSection (xmlContent : Str) (tagName : Str) : Option Str :=
  match findOcc ciEq (openTagOf tagName) xmlContent with
  | none => none
  | some i =>
      let rest := xmlContent.drop (i + (openTagOf tagName).length)
      match findOcc ciEq (closeTagOf tagName) rest with
      | none => none
      | some j => some (rest.take j)

/-- Fuelled global scanner for `<tag>...</tag>` matches.  `single = true`
models `(.*?)` content (no line terminators; a failed start position is
retried one character later), `single = false` models `([\s\S]*?)`. -/
def scanPairsF : Nat → Bool → Str → Str → Str → List Str
  | 0, _, _, _, _ => []
  | fuel + 1, single, opT, clT, s =>
      match findOcc csEq opT s with
      | none => []
      | some i =>
          match findOcc csEq clT (s.drop (i + opT.length)) with
          | none => []
          | some j =>
              if single then
                if ((s.drop (i + opT.length)).take j).all
                    (fun c => !(isLineTerminator c)) then
                  (s.drop (i + opT.length)).take j ::
                    scanPairsF fuel single opT clT
                      ((s.drop (i + opT.length)).drop (j + clT.length))
                else
                  scanPairsF fuel single opT clT (s.drop (i + 1))
              else
                (s.drop (i + opT.length)).take j ::
                  scanPairsF fuel single opT clT
                    ((s.drop (i + opT.length)).drop (j + clT.length))

def scanPairs (single : Bool) (opT clT s : Str) : List Str :=
  scanPairsF (s.length + 1) single opT clT s

/-- `extractXmlElements` (lines 105-122): all global single-line matches,
each trimmed then unescaped. -/
def extractXmlElements (xmlContent : Str) (tagName : Str) : List Str :=
  (scanPairs true (openTagOf tagName) (closeTagOf tagName) xmlContent).map
    (fun v => unescapeXml (jsTrim v))

/-- First match of a case-sensitive single-line `<tag>(.*?)</tag>` regex
(`String.prototype.match` without the `g` flag). -/
def findFirstInline (opT clT s : Str) : Option Str :=
  match scanPairs true opT clT s with
  | [] => none
  | v :: _ => some v

/-- `ImplementedFeature` (lines 20-24); an absent `file_locations` key is
`none`. -/
structure ImplementedFeature where
  name : Str
  description : Str
  file_locations : Option (List Str)
deriving DecidableEq

/-- Parsing of one `<feature>` block (lines 150-173): `<name>` and
`<description>` by first-match single-line regexes (trimmed, unescaped,
defaulting to the empty string), `file_locations` via the section extractor
(JS truthiness: an empty section string is falsy), and a feature with an
empty name is dropped. -/
def parseFeatureBlock (featureContent : Str) : Option ImplementedFeature :=
  let name := match findFirstInline nameOpen nameClose featureContent with
    | some raw => unescapeXml (jsTrim raw)
    | none => []
  let description := match findFirstInline descOpen descClose featureContent with
    | some raw => unescapeXml (jsTrim raw)
    | none => []
  let locationsSection := extractXmlSection featureContent flTag
  let file_locations : Option (List Str) := match locationsSection with
    | some sec => if sec.isEmpty then none else some (extractXmlElements sec locTag)
    | none => none
  let flField : Option (List Str) := match file_locations with
    | some l => if l.isEmpty then none else some l
    | none => none
  if name.isEmpty then none
  else some ⟨name, description, flField⟩

/-- `extractImplementedFeatures` (lines 131-178). -/
def extractImplementedFeatures (specContent : Str) : List ImplementedFeature :=
  match extractXmlSection specContent implTag with
  | none => []
  | some implementedSection =>
      if implementedSection.isEmpty then []
      else
        (scanPairs false featOpen featClose implementedSection).filterMap
          parseFeatureBlock

/-- `featureToXml` (lines 202-223), at the default two-space indent. -/
def featureToXml (feature : ImplementedFeature) (indent : Str := indent2) : Str :=
  let i2 := indent ++ indent
  let i3 := indent ++ indent ++ indent
  let i4 := indent ++ indent ++ indent ++ indent
  i2 ++ featOpen ++ nl ++
  i3 ++ nameOpen ++ escapeXml feature.name ++ nameClose ++ nl ++
  i3 ++ descOpen ++ escapeXml feature.description ++ descClose ++
  (match feature.file_locations with
   | some locs =>
       if locs.length > 0 then
         nl ++ i3 ++ openTagOf flTag ++ nl ++
         List.intercalate nl (locs.map (fun loc =>
           i4 ++ openTagOf locTag ++ escapeXml loc ++ closeTagOf locTag)) ++
         nl ++ i3 ++ closeTagOf flTag
       else []
   | none => []) ++
  nl ++ i2 ++ featClose

/-- `featuresToXml` (lines 232-234). -/
def featuresToXml (features : List ImplementedFeature) (indent : Str := indent2) :
    Str :=
  List.intercalate nl (features.map (fun f => featureToXml f indent))

/-- Replacement-string processing of `String.prototype.replace`: `$$`,
`$&`, dollar-backtick and dollar-apostrophe are substituted; a `$` before
any other character (the regex has no capture groups) stays literal. -/
def jsReplSubst : Str → Str → Str → Str → Str
  | [], _, _, _ => []
  | c :: rest, m, pre, post =>
      if c = '$' then
        match rest with
        | [] => [c]
        | d :: r2 =>
            if d = '$' then '$' :: jsReplSubst r2 m pre post
            else if d = '&' then m ++ jsReplSubst r2 m pre post
            else if d = backtick then pre ++ jsReplSubst r2 m pre post
            else if d = apos then post ++ jsReplSubst r2 m pre post
            else c :: jsReplSubst (d :: r2) m pre post
      else c :: jsReplSubst rest m pre post

/-- The text of the new section (lines 252-258). -/
def newSectionOf (newFeatures : List ImplementedFeature) : Str :=
  implOpen ++ nl ++ featuresToXml newFeatures indent2 ++ nl ++ indent2 ++ implClose

/-- The two insertion fallbacks of `updateImplementedFeaturesSection`
(lines 268-301): after the first `</core_capabilities>`, else before the
first `</project_specification>`, else unchanged. -/
def updateInsert (specContent newSection : Str) : Str :=
  match findOcc csEq ccEnd specContent with
  | some idx =>
      let insertPosition := idx + ccEnd.length
      specContent.take insertPosition ++ nl ++ nl ++ indent2 ++ newSection ++
        specContent.drop insertPosition
  | none =>
      match findOcc csEq psEnd specContent with
      | some fallbackIndex =>
          specContent.take fallbackIndex ++ indent2 ++ newSection ++ nl ++
            specContent.drop fallbackIndex
      | none => specContent

/-- `updateImplementedFeaturesSection` (lines 244-302).  The replace branch
is `specContent.replace(sectionRegex, newSection)` for the case-sensitive
non-greedy section regex, including the `$`-escape processing of the
replacement string. -/
def updateImplementedFeaturesSection (specContent : Str)
    (newFeatures : List ImplementedFeature) : Str :=
  let newSection := newSectionOf newFeatures
  match findOcc csEq implOpen specContent with
  | some i =>
      (match findOcc csEq implClose (specContent.drop (i + implOpen.length)) with
       | some j =>
           let rest := specContent.drop (i + implOpen.length)
           let matched := implOpen ++ rest.take j ++ implClose
           let pre := specContent.take i
           let post := rest.drop (j + implClose.length)
           pre ++ jsReplSubst newSection matched pre post ++ post
       | none => updateInsert specContent newSection)
  | none => updateInsert specContent newSection

def lowerStr (s : Str) : Str := s.map lowerC

/-- `addImplementedFeature` (lines 312-337). -/
def addImplementedFeature (specContent : Str) (newFeature : ImplementedFeature) :
    Str :=
  let existingFeatures := extractImplementedFeatures specContent
  let isDuplicate := existingFeatures.any
    (fun f => lowerStr f.name == lowerStr newFeature.name)
  if isDuplicate then specContent
  else updateImplementedFeaturesSection specContent (existingFeatures ++ [newFeature])

/-- `removeImplementedFeature` (lines 347-369). -/
def removeImplementedFeature (specContent : Str) (featureName : Str) : Str :=
  let existingFeatures := extractImplementedFeatures specContent
  let updatedFeatures := existingFeatures.filter
    (fun f => !(lowerStr f.name == lowerStr featureName))
  if updatedFeatures.length = existingFeatures.length then specContent
  else updateImplementedFeaturesSection specContent updatedFeatures

/-- `Partial<ImplementedFeature>`: a key absent from the update object is
`none`. -/
structure PartialImplementedFeature where
  name : Option Str
  description : Option Str
  file_locations : Option (List Str)
deriving DecidableEq

/-- The spread-merge `{...f, ...updates, name: updates.name ?? f.name}`
(lines 396-401). -/
def mergeFeature (f : ImplementedFeature) (updates : PartialImplementedFeature) :
    ImplementedFeature where
  name := updates.name.getD f.name
  description := updates.description.getD f.description
  file_locations := match updates.file_locations with
    | some l => some l
    | none => f.file_locations

/-- `updateImplementedFeature` (lines 380-413). -/
def updateImplementedFeature (specContent : Str) (featureName : Str)
    (updates : PartialImplementedFeature) : Str :=
  let existingFeatures := extractImplementedFeatures specContent
  let found := existingFeatures.any
    (fun f => lowerStr f.name == lowerStr featureName)
  let updatedFeatures := existingFeatures.map (fun f =>
    if lowerStr f.name == lowerStr featureName then mergeFeature f updates else f)
  if found then updateImplementedFeaturesSection specContent updatedFeatures
  else specContent

/-- `hasImplementedFeature` (lines 423-430). -/
def hasImplementedFeature (specContent : Str) (featureName : Str) : Bool :=
  (extractImplementedFeatures specContent).any
    (fun f => lowerStr f.name == lowerStr featureName)

/-- The `SpecOutput` implemented-feature shape from `@automaker/types`
(field-for-field the same three fields, as used by lines 438-466). -/
structure SpecOutputFeature where
  name : Str
  description : Str
  file_locations : Option (List Str)
deriving DecidableEq

/-- `toSpecOutputFeatures` (lines 438-448). -/
def toSpecOutputFeatures (features : List ImplementedFeature) :
    List SpecOutputFeature :=
  features.map (fun f =>
    { name := f.name
      description := f.description
      file_locations := match f.file_locations with
        | some l => if l.length > 0 then some l else none
        | none => none })

/-- `fromSpecOutputFeatures` (lines 456-466). -/
def fromSpecOutputFeatures (specFeatures : List SpecOutputFeature) :
    List ImplementedFeature :=
  specFeatures.map (fun f =>
    { name := f.name
      description := f.description
      file_locations := match f.file_locations with
        | some l => if l.length > 0 then some l else none
        | none => none })

/-! ### Occurrence calculus for the scanning proofs -/

theorem prefixBy_append_left (eqc) :
    ∀ (pat a b : Str), prefixBy eqc pat a = true → prefixBy eqc pat (a ++ b) = true := by
  intro pat
  induction pat with
  | nil => intro a b _; simp [prefixBy]
  | cons p ps ih =>
      intro a b h
      cases a with
      | nil => simp [prefixBy] at h
      | cons c a' =>
          simp only [prefixBy, Bool.and_eq_true] at h
          simp only [List.cons_append, prefixBy, Bool.and_eq_true]
          exact ⟨h.1, ih a' b h.2⟩

theorem prefixBy_of_take (eqc) :
    ∀ (pat z : Str) (m : Nat), prefixBy eqc pat (z.take m) = true →
      prefixBy eqc pat z = true := by
  intro pat
  induction pat with
  | nil => intro z m _; simp [prefixBy]
  | cons p ps ih =>
      intro z m h
      cases z with
      | nil => simp at h; simp [prefixBy] at h
      | cons c z' =>
          cases m with
          | zero => simp [prefixBy] at h
          | succ m' =>
              simp only [List.take_succ_cons, prefixBy, Bool.and_eq_true] at h
              simp only [prefixBy, Bool.and_eq_true]
              exact ⟨h.1, ih z' m' h.2⟩

theorem findOcc_eq_none_of_no_occ (eqc) (pat s : Str)
    (h : ∀ k, ¬ OccursAt eqc pat s k) : findOcc eqc pat s = none := by
  cases hfo : findOcc eqc pat s with
  | none => rfl
  | some i => exact absurd (findOcc_eq_some eqc pat s i hfo).1 (h i)

theorem findOcc_take_none (eqc) (pat s : Str) (p : Nat)
    (h : findOcc eqc pat s = none) : findOcc eqc pat (s.take p) = none := by
  apply findOcc_eq_none_of_no_occ
  intro k hk
  apply findOcc_eq_none eqc pat s h k
  unfold OccursAt at hk ⊢
  rw [List.drop_take] at hk
  exact prefixBy_of_take eqc pat (s.drop k) (p - k) hk

theorem prefixBy_mono (eqc1 eqc2 : Char → Char → Bool)
    (himp : ∀ a b, eqc1 a b = true → eqc2 a b = true) :
    ∀ (pat s : Str), prefixBy eqc1 pat s = true → prefixBy eqc2 pat s = true := by
  intro pat
  induction pat with
  | nil => intro s _; simp [prefixBy]
  | cons p ps ih =>
      intro s h
      cases s with
      | nil => simp [prefixBy] at h
      | cons c s' =>
          simp only [prefixBy, Bool.and_eq_true] at h
          simp only [prefixBy, Bool.and_eq_true]
          exact ⟨himp p c h.1, ih s' h.2⟩

theorem csEq_to_ciEq (a b : Char) (h : csEq a b = true) : ciEq a b = true := by
  unfold csEq at h
  rw [eq_of_beq h]
  exact ciEq_refl b

theorem findOcc_cs_none_of_ci_none (pat s : Str)
    (h : findOcc ciEq pat s = none) : findOcc csEq pat s = none := by
  apply findOcc_eq_none_of_no_occ
  intro k hk
  apply findOcc_eq_none ciEq pat s h k
  exact prefixBy_mono csEq ciEq csEq_to_ciEq pat (s.drop k) hk

theorem prefixBy_getD_pointwise (eqc) :
    ∀ (pat t : Str), prefixBy eqc pat t = true →
      ∀ k, k < pat.length → eqc (pat.getD k 'A') (t.getD k 'A') = true := by
  intro pat
  induction pat with
  | nil => intro t _ k hk; simp at hk
  | cons p ps ih =>
      intro t h k hk
      cases t with
      | nil => simp [prefixBy] at h
      | cons c t' =>
          simp only [prefixBy, Bool.and_eq_true] at h
          cases k with
          | zero => simpa using h.1
          | succ k' =>
              simp only [List.getD_cons_succ]
              exact ih t' h.2 k' (by simpa using hk)

/-! ### Fuel lemmas for the scanner -/

theorem scanPairsF_irrel (single : Bool) (opT clT : Str) (hop : opT ≠ []) :
    ∀ fuel1 fuel2 s, s.length < fuel1 → s.length < fuel2 →
      scanPairsF fuel1 single opT clT s = scanPairsF fuel2 single opT clT s := by
  intro fuel1
  induction fuel1 with
  | zero => intro fuel2 s h1 _; omega
  | succ g ih =>
      intro fuel2 s h1 h2
      cases fuel2 with
      | zero => omega
      | succ g2 =>
          have hopl : 1 ≤ opT.length := by
            cases opT with
            | nil => exact absurd rfl hop
            | cons _ _ => simp
          show scanPairsF (g + 1) single opT clT s = scanPairsF (g2 + 1) single opT clT s
          unfold scanPairsF
          split
          · rfl
          · rename_i i hfo
            have hi : i < s.length := findOcc_some_lt csEq opT s i hop hfo
            split
            · rfl
            · rename_i j hfc
              have hlen1 : ((s.drop (i + opT.length)).drop (j + clT.length)).length <
                  s.length := by
                rw [List.length_drop, List.length_drop]
                omega
              have hlen2 : (s.drop (i + 1)).length < s.length := by
                rw [List.length_drop]
                omega
              split
              · split
                · congr 1
                  exact ih g2 _ (by omega) (by omega)
                · exact ih g2 _ (by omega) (by omega)
              · congr 1
                exact ih g2 _ (by omega) (by omega)

theorem scanPairs_nil_of_none (single : Bool) (opT clT s : Str)
    (h : findOcc csEq opT s = none) : scanPairs single opT clT s = [] := by
  unfold scanPairs scanPairsF
  rw [h]

theorem scanPairs_cons_of_found (single : Bool) (opT clT s : Str) (hop : opT ≠ [])
    (i j : Nat) (hfo : findOcc csEq opT s = some i)
    (hfc : findOcc csEq clT (s.drop (i + opT.length)) = some j)
    (hterm : single = true →
      ((s.drop (i + opT.length)).take j).all (fun c => !(isLineTerminator c)) = true) :
    scanPairs single opT clT s =
      (s.drop (i + opT.length)).take j ::
        scanPairs single opT clT ((s.drop (i + opT.length)).drop (j + clT.length)) := by
  have hopl : 1 ≤ opT.length := by
    cases opT with
    | nil => exact absurd rfl hop
    | cons _ _ => simp
  have hi : i < s.length := findOcc_some_lt csEq opT s i hop hfo
  have hlen1 : ((s.drop (i + opT.length)).drop (j + clT.length)).length < s.length := by
    rw [List.length_drop, List.length_drop]
    omega
  have hfuel : scanPairsF s.length single opT clT
      ((s.drop (i + opT.length)).drop (j + clT.length)) =
      scanPairs single opT clT ((s.drop (i + opT.length)).drop (j + clT.length)) := by
    unfold scanPairs
    exact scanPairsF_irrel single opT clT hop _ _ _ (by omega) (by omega)
  conv_lhs => unfold scanPairs scanPairsF
  rw [hfo]
  simp only []
  rw [hfc]
  simp only []
  cases single with
  | false =>
      simp only [Bool.false_eq_true, if_false]
      rw [hfuel]
  | true =>
      simp only [if_true]
      rw [if_pos (hterm rfl), hfuel]

theorem scanPairs_step (single : Bool) (opT clT pre inner rest2 : Str)
    (hop : opT ≠ []) (hcl : clT ≠ [])
    (hpre : Blocks csEq opT pre)
    (hinner : Blocks csEq clT inner)
    (hterm : single = true → inner.all (fun c => !(isLineTerminator c)) = true) :
    scanPairs single opT clT (pre ++ (opT ++ (inner ++ (clT ++ rest2)))) =
      inner :: scanPairs single opT clT rest2 := by
  have hfo : findOcc csEq opT (pre ++ (opT ++ (inner ++ (clT ++ rest2)))) =
      some pre.length := by
    rw [findOcc_append_of_blocks csEq opT _ pre hpre,
      findOcc_prefix csEq opT _ (prefixBy_refl csEq csEq_refl opT _)]
    simp
  have hdrop : (pre ++ (opT ++ (inner ++ (clT ++ rest2)))).drop
      (pre.length + opT.length) = inner ++ (clT ++ rest2) := by
    rw [List.drop_append_eq_append_drop, List.drop_eq_nil_of_le (by omega),
      List.nil_append, Nat.add_sub_cancel_left, List.drop_left]
  have hfc : findOcc csEq clT (inner ++ (clT ++ rest2)) = some inner.length := by
    rw [findOcc_append_of_blocks csEq clT _ inner hinner,
      findOcc_prefix csEq clT _ (prefixBy_refl csEq csEq_refl clT _)]
    simp
  have htake : (inner ++ (clT ++ rest2)).take inner.length = inner :=
    List.take_left inner _
  have hdrop2 : (inner ++ (clT ++ rest2)).drop (inner.length + clT.length) = rest2 := by
    rw [List.drop_append_eq_append_drop, List.drop_eq_nil_of_le (by omega),
      List.nil_append, Nat.add_sub_cancel_left, List.drop_left]
  rw [scanPairs_cons_of_found single opT clT _ hop pre.length inner.length hfo
    (by rw [hdrop]; exact hfc)
    (by
      intro hsg
      rw [hdrop, htake]
      exact hterm hsg)]
  rw [hdrop, htake, hdrop2]

theorem findFirstInline_step (opT clT pre inner rest2 : Str)
    (hop : opT ≠ []) (hcl : clT ≠ [])
    (hpre : Blocks csEq opT pre)
    (hinner : Blocks csEq clT inner)
    (hterm : inner.all (fun c => !(isLineTerminator c)) = true) :
    findFirstInline opT clT (pre ++ (opT ++ (inner ++ (clT ++ rest2)))) =
      some inner := by
  unfold findFirstInline
  rw [scanPairs_step true opT clT pre inner rest2 hop hcl hpre hinner (fun _ => hterm)]

theorem findFirstInline_none (opT clT s : Str)
    (h : findOcc csEq opT s = none) : findFirstInline opT clT s = none := by
  unfold findFirstInline
  rw [scanPairs_nil_of_none true opT clT s h]

/-! ### Decomposition of the rendered feature text -/

def i2s : Str := indent2 ++ indent2

def i3s : Str := indent2 ++ (indent2 ++ indent2)

def i4s : Str := indent2 ++ (indent2 ++ (indent2 ++ indent2))

def locLine (loc : Str) : Str :=
  i4s ++ (openTagOf locTag ++ (escapeXml loc ++ closeTagOf locTag))

def flPart : Option (List Str) → Str
  | some locs =>
      if locs.length > 0 then
        nl ++ (i3s ++ (openTagOf flTag ++ (nl ++
          (List.intercalate nl (locs.map locLine) ++
            (nl ++ (i3s ++ closeTagOf flTag))))))
      else []
  | none => []

def blockInner (f : ImplementedFeature) : Str :=
  nl ++ (i3s ++ (nameOpen ++ (escapeXml f.name ++ (nameClose ++ (nl ++
    (i3s ++ (descOpen ++ (escapeXml f.description ++ (descClose ++
      (flPart f.file_locations ++ (nl ++ i2s)))))))))))

theorem featureToXml_decomp (f : ImplementedFeature) :
    featureToXml f indent2 = i2s ++ (featOpen ++ (blockInner f ++ featClose)) := by
  unfold featureToXml blockInner flPart locLine i2s i3s i4s
  cases f.file_locations with
  | none => simp [List.append_assoc]
  | some locs =>
      by_cases hl : locs.length > 0
      · simp only [hl, if_true]
        simp [List.append_assoc]
      · simp only [hl, if_false]
        simp [List.append_assoc]

theorem intercalate_cons_str (sep a : Str) (l : List Str) :
    List.intercalate sep (a :: l) =
      if l.isEmpty then a else a ++ (sep ++ List.intercalate sep l) := by
  cases l with
  | nil => simp [List.intercalate]
  | cons b m => simp [List.intercalate, List.intersperse_cons₂]

theorem featuresToXml_nil : featuresToXml [] indent2 = [] := rfl

theorem featuresToXml_cons (f : ImplementedFeature) (rest : List ImplementedFeature) :
    featuresToXml (f :: rest) indent2 =
      if rest.isEmpty then featureToXml f indent2
      else featureToXml f indent2 ++ (nl ++ featuresToXml rest indent2) := by
  unfold featuresToXml
  rw [List.map_cons, intercalate_cons_str]
  cases rest <;> simp

/-! ### Blocks facts for the rendered text -/

theorem blocks_nil_str (eqc) (pat : Str) : Blocks eqc pat [] := by
  intro rest i hi
  simp at hi

theorem blocks_cs_of_no_lt (ps x : Str) (h : '<' ∉ x) : Blocks csEq ('<' :: ps) x :=
  blocks_of_charfree csEq '<' ps x (fun c hc =>
    csEq_eq_false '<' c (fun he => h (he ▸ hc)))

theorem blocks_ci_of_no_lt (ps x : Str) (h : '<' ∉ x) : Blocks ciEq ('<' :: ps) x :=
  blocks_of_charfree ciEq '<' ps x (fun c hc =>
    ciEq_lt_eq_false c (fun he => h (he ▸ hc)))

theorem no_lt_nl : '<' ∉ nl := by decide

theorem no_lt_indent2 : '<' ∉ indent2 := by decide

theorem no_lt_i2s : '<' ∉ i2s := by decide

theorem no_lt_i3s : '<' ∉ i3s := by decide

theorem no_lt_i4s : '<' ∉ i4s := by decide

/-- A pattern starting with `<` that is blocked by every concrete tag of a
location line is blocked by the joined location lines. -/
theorem blocks_locLines (eqc : Char → Char → Bool) (ps : Str)
    (hnolt : ∀ x : Str, '<' ∉ x → Blocks eqc ('<' :: ps) x)
    (ht7 : Blocks eqc ('<' :: ps) (openTagOf locTag))
    (ht8 : Blocks eqc ('<' :: ps) (closeTagOf locTag)) :
    ∀ locs : List Str,
      Blocks eqc ('<' :: ps) (List.intercalate nl (locs.map locLine)) := by
  have hline : ∀ loc, Blocks eqc ('<' :: ps) (locLine loc) := by
    intro loc
    unfold locLine
    exact blocks_append eqc _ _ _ (hnolt i4s no_lt_i4s)
      (blocks_append eqc _ _ _ ht7
        (blocks_append eqc _ _ _ (hnolt _ (escape_no_lt loc)) ht8))
  intro locs
  induction locs with
  | nil => exact blocks_nil_str eqc _
  | cons loc rest ih =>
      rw [List.map_cons, intercalate_cons_str]
      cases rest with
      | nil =>
          simp only [List.map_nil, List.isEmpty_nil, if_true]
          exact hline loc
      | cons b m =>
          simp only [List.map_cons, List.isEmpty_cons, if_false]
          exact blocks_append eqc _ _ _ (hline loc)
            (blocks_append eqc _ _ _ (hnolt nl no_lt_nl) (by
              have := ih
              rw [List.map_cons] at this
              exact this))

theorem blocks_flPart (eqc : Char → Char → Bool) (ps : Str)
    (hnolt : ∀ x : Str, '<' ∉ x → Blocks eqc ('<' :: ps) x)
    (ht5 : Blocks eqc ('<' :: ps) (openTagOf flTag))
    (ht6 : Blocks eqc ('<' :: ps) (closeTagOf flTag))
    (ht7 : Blocks eqc ('<' :: ps) (openTagOf locTag))
    (ht8 : Blocks eqc ('<' :: ps) (closeTagOf locTag)) :
    ∀ fl : Option (List Str), Blocks eqc ('<' :: ps) (flPart fl) := by
  intro fl
  cases fl with
  | none => exact blocks_nil_str eqc _
  | some locs =>
      unfold flPart
      simp only []
      by_cases hl : locs.length > 0
      · rw [if_pos hl]
        exact blocks_append eqc _ _ _ (hnolt nl no_lt_nl)
          (blocks_append eqc _ _ _ (hnolt i3s no_lt_i3s)
            (blocks_append eqc _ _ _ ht5
              (blocks_append eqc _ _ _ (hnolt nl no_lt_nl)
                (blocks_append eqc _ _ _ (blocks_locLines eqc ps hnolt ht7 ht8 locs)
                  (blocks_append eqc _ _ _ (hnolt nl no_lt_nl)
                    (blocks_append eqc _ _ _ (hnolt i3s no_lt_i3s) ht6))))))
      · rw [if_neg hl]
        exact blocks_nil_str eqc _

theorem blocks_blockInner (eqc : Char → Char → Bool) (ps : Str)
    (hnolt : ∀ x : Str, '<' ∉ x → Blocks eqc ('<' :: ps) x)
    (ht1 : Blocks eqc ('<' :: ps) nameOpen)
    (ht2 : Blocks eqc ('<' :: ps) nameClose)
    (ht3 : Blocks eqc ('<' :: ps) descOpen)
    (ht4 : Blocks eqc ('<' :: ps) descClose)
    (ht5 : Blocks eqc ('<' :: ps) (openTagOf flTag))
    (ht6 : Blocks eqc ('<' :: ps) (closeTagOf flTag))
    (ht7 : Blocks eqc ('<' :: ps) (openTagOf locTag))
    (ht8 : Blocks eqc ('<' :: ps) (closeTagOf locTag))
    (f : ImplementedFeature) : Blocks eqc ('<' :: ps) (blockInner f) := by
  unfold blockInner
  exact blocks_append eqc _ _ _ (hnolt nl no_lt_nl)
    (blocks_append eqc _ _ _ (hnolt i3s no_lt_i3s)
      (blocks_append eqc _ _ _ ht1
        (blocks_append eqc _ _ _ (hnolt _ (escape_no_lt f.name))
          (blocks_append eqc _ _ _ ht2
            (blocks_append eqc _ _ _ (hnolt nl no_lt_nl)
              (blocks_append eqc _ _ _ (hnolt i3s no_lt_i3s)
                (blocks_append eqc _ _ _ ht3
                  (blocks_append eqc _ _ _ (hnolt _ (escape_no_lt f.description))
                    (blocks_append eqc _ _ _ ht4
                      (blocks_append eqc _ _ _
                        (blocks_flPart eqc ps hnolt ht5 ht6 ht7 ht8 f.file_locations)
                        (blocks_append eqc _ _ _ (hnolt nl no_lt_nl)
                          (hnolt i2s no_lt_i2s))))))))))))

theorem blocks_featureToXml (eqc : Char → Char → Bool) (ps : Str)
    (hnolt : ∀ x : Str, '<' ∉ x → Blocks eqc ('<' :: ps) x)
    (ht1 : Blocks eqc ('<' :: ps) nameOpen)
    (ht2 : Blocks eqc ('<' :: ps) nameClose)
    (ht3 : Blocks eqc ('<' :: ps) descOpen)
    (ht4 : Blocks eqc ('<' :: ps) descClose)
    (ht5 : Blocks eqc ('<' :: ps) (openTagOf flTag))
    (ht6 : Blocks eqc ('<' :: ps) (closeTagOf flTag))
    (ht7 : Blocks eqc ('<' :: ps) (openTagOf locTag))
    (ht8 : Blocks eqc ('<' :: ps) (closeTagOf locTag))
    (htF : Blocks eqc ('<' :: ps) featOpen)
    (htC : Blocks eqc ('<' :: ps) featClose)
    (f : ImplementedFeature) : Blocks eqc ('<' :: ps) (featureToXml f indent2) := by
  rw [featureToXml_decomp]
  exact blocks_append eqc _ _ _ (hnolt i2s no_lt_i2s)
    (blocks_append eqc _ _ _ htF
      (blocks_append eqc _ _ _
        (blocks_blockInner eqc ps hnolt ht1 ht2 ht3 ht4 ht5 ht6 ht7 ht8 f) htC))

theorem blocks_featuresToXml (eqc : Char → Char → Bool) (ps : Str)
    (hnolt : ∀ x : Str, '<' ∉ x → Blocks eqc ('<' :: ps) x)
    (ht1 : Blocks eqc ('<' :: ps) nameOpen)
    (ht2 : Blocks eqc ('<' :: ps) nameClose)
    (ht3 : Blocks eqc ('<' :: ps) descOpen)
    (ht4 : Blocks eqc ('<' :: ps) descClose)
    (ht5 : Blocks eqc ('<' :: ps) (openTagOf flTag))
    (ht6 : Blocks eqc ('<' :: ps) (closeTagOf flTag))
    (ht7 : Blocks eqc ('<' :: ps) (openTagOf locTag))
    (ht8 : Blocks eqc ('<' :: ps) (closeTagOf locTag))
    (htF : Blocks eqc ('<' :: ps) featOpen)
    (htC : Blocks eqc ('<' :: ps) featClose) :
    ∀ F : List ImplementedFeature,
      Blocks eqc ('<' :: ps) (featuresToXml F indent2) := by
  intro F
  induction F with
  | nil => exact blocks_nil_str eqc _
  | cons f rest ih =>
      rw [featuresToXml_cons]
      have hone := blocks_featureToXml eqc ps hnolt ht1 ht2 ht3 ht4 ht5 ht6
        ht7 ht8 htF htC f
      cases rest with
      | nil =>
          simp only [List.isEmpty_nil, if_true]
          exact hone
      | cons b m =>
          simp only [List.isEmpty_cons, if_false]
          exact blocks_append eqc _ _ _ hone
            (blocks_append eqc _ _ _ (hnolt nl no_lt_nl) ih)

/-! ### Cleanliness of feature fields -/

/-- A field round-trips through serialisation: it is invariant under
`trim`, contains no line terminator (single-line regexes) and no dollar
sign (replacement-string escapes). -/
def cleanField (x : Str) : Bool :=
  (jsTrim x == x) && x.all (fun c => !(isLineTerminator c)) && !(x.contains '$')

def cleanFL : Option (List Str) → Bool
  | some l => !l.isEmpty && l.all cleanField
  | none => true

def cleanFeature (f : ImplementedFeature) : Bool :=
  !f.name.isEmpty && cleanField f.name && cleanField f.description &&
    cleanFL f.file_locations

theorem cleanField_trim (x : Str) (h : cleanField x = true) : jsTrim x = x := by
  unfold cleanField at h
  simp only [Bool.and_eq_true, beq_iff_eq] at h
  exact h.1.1

theorem cleanField_noTerm (x : Str) (h : cleanField x = true) :
    x.all (fun c => !(isLineTerminator c)) = true := by
  unfold cleanField at h
  simp only [Bool.and_eq_true] at h
  exact h.1.2

theorem cleanField_noDollar (x : Str) (h : cleanField x = true) : '$' ∉ x := by
  unfold cleanField at h
  simp only [Bool.and_eq_true, Bool.not_eq_true'] at h
  have h2 := h.2
  intro hmem
  have hany : List.any x (fun y => '$' == y) = true := by
    rw [List.any_eq_true]
    exact ⟨'$', hmem, by simp⟩
  rw [List.contains_eq_any_beq, hany] at h2
  simp at h2

theorem unescape_trim_escape (x : Str) (h : jsTrim x = x) :
    unescapeXml (jsTrim (escapeXml x)) = x := by
  rw [jsTrim_escape x h, unescapeXml_escapeXml]

theorem escape_all_noTerm (x : Str)
    (h : x.all (fun c => !(isLineTerminator c)) = true) :
    (escapeXml x).all (fun c => !(isLineTerminator c)) = true := by
  rw [List.all_eq_true] at h ⊢
  intro c hc
  have hstep := escape_term x (fun d hd => by
    have := h d hd
    simpa using this) c hc
  simpa using hstep

/-! ### Section extraction over a split string -/

theorem extractXmlSection_eq (tag pre mid post : Str)
    (hpre : Blocks ciEq (openTagOf tag) pre)
    (hmid : Blocks ciEq (closeTagOf tag) mid) :
    extractXmlSection
      (pre ++ (openTagOf tag ++ (mid ++ (closeTagOf tag ++ post)))) tag =
      some mid := by
  unfold extractXmlSection
  have hfo : findOcc ciEq (openTagOf tag)
      (pre ++ (openTagOf tag ++ (mid ++ (closeTagOf tag ++ post)))) =
      some pre.length := by
    rw [findOcc_append_of_blocks ciEq _ _ pre hpre,
      findOcc_prefix ciEq _ _ (prefixBy_refl ciEq ciEq_refl _ _)]
    simp
  rw [hfo]
  simp only []
  have hdrop : (pre ++ (openTagOf tag ++ (mid ++ (closeTagOf tag ++ post)))).drop
      (pre.length + (openTagOf tag).length) = mid ++ (closeTagOf tag ++ post) := by
    rw [List.drop_append_eq_append_drop, List.drop_eq_nil_of_le (by omega),
      List.nil_append, Nat.add_sub_cancel_left, List.drop_left]
  rw [hdrop]
  have hfc : findOcc ciEq (closeTagOf tag) (mid ++ (closeTagOf tag ++ post)) =
      some mid.length := by
    rw [findOcc_append_of_blocks ciEq _ _ mid hmid,
      findOcc_prefix ciEq _ _ (prefixBy_refl ciEq ciEq_refl _ _)]
    simp
  rw [hfc]
  simp only []
  rw [List.take_left]

theorem extractXmlSection_none (s tag : Str)
    (h : findOcc ciEq (openTagOf tag) s = none) :
    extractXmlSection s tag = none := by
  unfold extractXmlSection
  rw [h]

/-! ### Scanning the rendered location lines -/

theorem scan_locLines :
    ∀ locs : List Str, locs.all cleanField = true →
      scanPairs true (openTagOf locTag) (closeTagOf locTag)
        (nl ++ (List.intercalate nl (locs.map locLine) ++ (nl ++ i3s))) =
        locs.map escapeXml := by
  intro locs
  induction locs with
  | nil =>
      intro _
      rw [List.map_nil, List.map_nil]
      apply scanPairs_nil_of_none
      rw [show List.intercalate nl ([] : List Str) = [] from rfl]
      decide
  | cons loc rest ih =>
      intro hclean
      have hcl : cleanField loc = true ∧ rest.all cleanField = true := by
        simpa using hclean
      rw [List.map_cons, intercalate_cons_str, List.map_cons]
      cases rest with
      | nil =>
          simp only [List.map_nil, List.isEmpty_nil, if_true]
          have hsplit : nl ++ (locLine loc ++ (nl ++ i3s)) =
              (nl ++ i4s) ++ (openTagOf locTag ++ (escapeXml loc ++
                (closeTagOf locTag ++ (nl ++ i3s)))) := by
            unfold locLine
            simp [List.append_assoc]
          rw [hsplit, scanPairs_step true (openTagOf locTag) (closeTagOf locTag)
            (nl ++ i4s) (escapeXml loc) (nl ++ i3s) (by decide) (by decide)
            (blocks_of_segChk csEq (openTagOf locTag) (nl ++ i4s) (by decide))
            (show Blocks csEq (closeTagOf locTag) (escapeXml loc) from
              blocks_cs_of_no_lt _ _ (escape_no_lt loc))
            (fun _ => escape_all_noTerm loc (cleanField_noTerm loc hcl.1))]
          rw [scanPairs_nil_of_none true _ _ _ (by decide)]
      | cons b m =>
          simp only [List.map_cons, List.isEmpty_cons, Bool.false_eq_true, if_false]
          have hsplit : nl ++ ((locLine loc ++
              (nl ++ List.intercalate nl (locLine b :: List.map locLine m))) ++
                (nl ++ i3s)) =
              (nl ++ i4s) ++ (openTagOf locTag ++ (escapeXml loc ++
                (closeTagOf locTag ++ (nl ++
                  (List.intercalate nl (locLine b :: List.map locLine m) ++
                    (nl ++ i3s)))))) := by
            unfold locLine
            simp [List.append_assoc]
          rw [hsplit, scanPairs_step true (openTagOf locTag) (closeTagOf locTag)
            (nl ++ i4s) (escapeXml loc)
            (nl ++ (List.intercalate nl (locLine b :: List.map locLine m) ++
              (nl ++ i3s)))
            (by decide) (by decide)
            (blocks_of_segChk csEq (openTagOf locTag) (nl ++ i4s) (by decide))
            (show Blocks csEq (closeTagOf locTag) (escapeXml loc) from
              blocks_cs_of_no_lt _ _ (escape_no_lt loc))
            (fun _ => escape_all_noTerm loc (cleanField_noTerm loc hcl.1))]
          have ih2 := ih hcl.2
          rw [List.map_cons, List.map_cons] at ih2
          rw [ih2]

/-! ### Parsing a rendered block -/

theorem map_self {α : Type} (g : α → α) :
    ∀ l : List α, (∀ a ∈ l, g a = a) → l.map g = l := by
  intro l
  induction l with
  | nil => intro _; rfl
  | cons a rest ih =>
      intro h
      rw [List.map_cons, h a (by simp), ih (fun b hb => h b (by simp [hb]))]

theorem map_map_self {α : Type} (g h : α → α) (l : List α)
    (hg : ∀ a ∈ l, g (h a) = a) : (l.map h).map g = l := by
  induction l with
  | nil => rfl
  | cons a rest ih =>
      rw [List.map_cons, List.map_cons, hg a (by simp),
        ih (fun b hb => hg b (by simp [hb]))]

theorem blockInner_name_split (f : ImplementedFeature) :
    blockInner f = (nl ++ i3s) ++ (nameOpen ++ (escapeXml f.name ++ (nameClose ++
      (nl ++ (i3s ++ (descOpen ++ (escapeXml f.description ++ (descClose ++
        (flPart f.file_locations ++ (nl ++ i2s)))))))))) := by
  unfold blockInner
  simp [List.append_assoc]

theorem blockInner_desc_split (f : ImplementedFeature) :
    blockInner f = (nl ++ (i3s ++ (nameOpen ++ (escapeXml f.name ++ (nameClose ++
      (nl ++ i3s)))))) ++ (descOpen ++ (escapeXml f.description ++ (descClose ++
        (flPart f.file_locations ++ (nl ++ i2s))))) := by
  unfold blockInner
  simp [List.append_assoc]

theorem findFirstInline_name (f : ImplementedFeature)
    (hnoTerm : (escapeXml f.name).all (fun c => !(isLineTerminator c)) = true) :
    findFirstInline nameOpen nameClose (blockInner f) = some (escapeXml f.name) := by
  rw [blockInner_name_split]
  exact findFirstInline_step nameOpen nameClose (nl ++ i3s) (escapeXml f.name) _
    (by decide) (by decide)
    (blocks_of_segChk csEq nameOpen (nl ++ i3s) (by decide))
    (show Blocks csEq nameClose (escapeXml f.name) from
      blocks_cs_of_no_lt _ _ (escape_no_lt _))
    hnoTerm

theorem blocks_descOpen_pre (f : ImplementedFeature) : Blocks csEq descOpen
    (nl ++ (i3s ++ (nameOpen ++ (escapeXml f.name ++ (nameClose ++ (nl ++ i3s)))))) := by
  refine blocks_append csEq descOpen nl _
    (blocks_of_segChk csEq descOpen nl (by decide)) ?_
  refine blocks_append csEq descOpen i3s _
    (blocks_of_segChk csEq descOpen i3s (by decide)) ?_
  refine blocks_append csEq descOpen nameOpen _
    (blocks_of_segChk csEq descOpen nameOpen (by decide)) ?_
  refine blocks_append csEq descOpen (escapeXml f.name) _
    (show Blocks csEq descOpen (escapeXml f.name) from
      blocks_cs_of_no_lt _ _ (escape_no_lt _)) ?_
  refine blocks_append csEq descOpen nameClose _
    (blocks_of_segChk csEq descOpen nameClose (by decide)) ?_
  exact blocks_append csEq descOpen nl i3s
    (blocks_of_segChk csEq descOpen nl (by decide))
    (blocks_of_segChk csEq descOpen i3s (by decide))

theorem findFirstInline_desc (f : ImplementedFeature)
    (hnoTerm : (escapeXml f.description).all (fun c => !(isLineTerminator c)) = true) :
    findFirstInline descOpen descClose (blockInner f) =
      some (escapeXml f.description) := by
  rw [blockInner_desc_split]
  exact findFirstInline_step descOpen descClose _ (escapeXml f.description) _
    (by decide) (by decide)
    (blocks_descOpen_pre f)
    (show Blocks csEq descClose (escapeXml f.description) from
      blocks_cs_of_no_lt _ _ (escape_no_lt _))
    hnoTerm

theorem blocks_blockInner_noFl (eqc : Char → Char → Bool) (pat : Str)
    (f : ImplementedFeature) (h : f.file_locations = none)
    (h0 : Blocks eqc pat nl) (h0a : Blocks eqc pat i3s) (h0b : Blocks eqc pat i2s)
    (h1 : Blocks eqc pat nameOpen) (h2 : Blocks eqc pat nameClose)
    (h3 : Blocks eqc pat descOpen) (h4 : Blocks eqc pat descClose)
    (hesc : ∀ x : Str, Blocks eqc pat (escapeXml x)) :
    Blocks eqc pat (blockInner f) := by
  unfold blockInner
  rw [h]
  rw [show flPart none = [] from rfl]
  exact blocks_append eqc _ _ _ h0
    (blocks_append eqc _ _ _ h0a
      (blocks_append eqc _ _ _ h1
        (blocks_append eqc _ _ _ (hesc f.name)
          (blocks_append eqc _ _ _ h2
            (blocks_append eqc _ _ _ h0
              (blocks_append eqc _ _ _ h0a
                (blocks_append eqc _ _ _ h3
                  (blocks_append eqc _ _ _ (hesc f.description)
                    (blocks_append eqc _ _ _ h4
                      (blocks_append eqc _ _ _ (blocks_nil_str eqc _)
                        (blocks_append eqc _ _ _ h0 h0b)))))))))))

theorem blockInner_fl_none (f : ImplementedFeature) (h : f.file_locations = none) :
    extractXmlSection (blockInner f) flTag = none := by
  apply extractXmlSection_none
  apply findOcc_none_of_blocks ciEq _ _ (by decide)
  exact blocks_blockInner_noFl ciEq (openTagOf flTag) f h
    (blocks_of_segChk ciEq _ nl (by decide))
    (blocks_of_segChk ciEq _ i3s (by decide))
    (blocks_of_segChk ciEq _ i2s (by decide))
    (blocks_of_segChk ciEq _ nameOpen (by decide))
    (blocks_of_segChk ciEq _ nameClose (by decide))
    (blocks_of_segChk ciEq _ descOpen (by decide))
    (blocks_of_segChk ciEq _ descClose (by decide))
    (fun x => show Blocks ciEq (openTagOf flTag) (escapeXml x) from
      blocks_ci_of_no_lt _ _ (escape_no_lt _))

theorem blockInner_fl_some (f : ImplementedFeature) (locs : List Str)
    (h : f.file_locations = some locs) (hlen : locs.length > 0) :
    extractXmlSection (blockInner f) flTag =
      some (nl ++ (List.intercalate nl (locs.map locLine) ++ (nl ++ i3s))) := by
  have hsplit : blockInner f =
      (nl ++ (i3s ++ (nameOpen ++ (escapeXml f.name ++ (nameClose ++
        (nl ++ (i3s ++ (descOpen ++ (escapeXml f.description ++ (descClose ++
          (nl ++ i3s))))))))))) ++
      (openTagOf flTag ++
        ((nl ++ (List.intercalate nl (locs.map locLine) ++ (nl ++ i3s))) ++
          (closeTagOf flTag ++ (nl ++ i2s)))) := by
    unfold blockInner flPart
    rw [h]
    simp only [hlen, if_true]
    simp [List.append_assoc]
  rw [hsplit]
  apply extractXmlSection_eq
  · refine blocks_append ciEq _ nl _
      (blocks_of_segChk ciEq _ nl (by decide)) ?_
    refine blocks_append ciEq _ i3s _
      (blocks_of_segChk ciEq _ i3s (by decide)) ?_
    refine blocks_append ciEq _ nameOpen _
      (blocks_of_segChk ciEq _ nameOpen (by decide)) ?_
    refine blocks_append ciEq _ (escapeXml f.name) _
      (show Blocks ciEq (openTagOf flTag) (escapeXml f.name) from
        blocks_ci_of_no_lt _ _ (escape_no_lt _)) ?_
    refine blocks_append ciEq _ nameClose _
      (blocks_of_segChk ciEq _ nameClose (by decide)) ?_
    refine blocks_append ciEq _ nl _
      (blocks_of_segChk ciEq _ nl (by decide)) ?_
    refine blocks_append ciEq _ i3s _
      (blocks_of_segChk ciEq _ i3s (by decide)) ?_
    refine blocks_append ciEq _ descOpen _
      (blocks_of_segChk ciEq _ descOpen (by decide)) ?_
    refine blocks_append ciEq _ (escapeXml f.description) _
      (show Blocks ciEq (openTagOf flTag) (escapeXml f.description) from
        blocks_ci_of_no_lt _ _ (escape_no_lt _)) ?_
    refine blocks_append ciEq _ descClose _
      (blocks_of_segChk ciEq _ descClose (by decide)) ?_
    exact blocks_append ciEq _ nl i3s
      (blocks_of_segChk ciEq _ nl (by decide))
      (blocks_of_segChk ciEq _ i3s (by decide))
  · refine blocks_append ciEq _ nl _
      (blocks_of_segChk ciEq _ nl (by decide)) ?_
    refine blocks_append ciEq _ (List.intercalate nl (locs.map locLine)) _
      (show Blocks ciEq (closeTagOf flTag) (List.intercalate nl (locs.map locLine)) from
        blocks_locLines ciEq _
          (fun x hx => blocks_ci_of_no_lt _ x hx)
          (blocks_of_segChk ciEq _ (openTagOf locTag) (by decide))
          (blocks_of_segChk ciEq _ (closeTagOf locTag) (by decide)) locs) ?_
    exact blocks_append ciEq _ nl i3s
      (blocks_of_segChk ciEq _ nl (by decide))
      (blocks_of_segChk ciEq _ i3s (by decide))

theorem blocks_featClose_blockInner (f : ImplementedFeature) :
    Blocks csEq featClose (blockInner f) :=
  blocks_blockInner csEq _
    (fun x hx => blocks_cs_of_no_lt _ x hx)
    (blocks_of_segChk csEq _ nameOpen (by decide))
    (blocks_of_segChk csEq _ nameClose (by decide))
    (blocks_of_segChk csEq _ descOpen (by decide))
    (blocks_of_segChk csEq _ descClose (by decide))
    (blocks_of_segChk csEq _ (openTagOf flTag) (by decide))
    (blocks_of_segChk csEq _ (closeTagOf flTag) (by decide))
    (blocks_of_segChk csEq _ (openTagOf locTag) (by decide))
    (blocks_of_segChk csEq _ (closeTagOf locTag) (by decide))
    f

theorem scan_feature_blocks :
    ∀ F : List ImplementedFeature,
      scanPairs false featOpen featClose
        (nl ++ (featuresToXml F indent2 ++ (nl ++ indent2))) =
        F.map blockInner := by
  intro F
  induction F with
  | nil =>
      rw [List.map_nil]
      apply scanPairs_nil_of_none
      decide
  | cons f rest ih =>
      rw [List.map_cons, featuresToXml_cons]
      cases rest with
      | nil =>
          simp only [List.isEmpty_nil, if_true]
          rw [featureToXml_decomp]
          have hsplit : nl ++ ((i2s ++ (featOpen ++ (blockInner f ++ featClose))) ++
              (nl ++ indent2)) =
              (nl ++ i2s) ++ (featOpen ++ (blockInner f ++
                (featClose ++ (nl ++ indent2)))) := by
            simp [List.append_assoc]
          rw [hsplit]
          rw [scanPairs_step false featOpen featClose (nl ++ i2s) (blockInner f)
            (nl ++ indent2) (by decide) (by decide)
            (blocks_of_segChk csEq featOpen (nl ++ i2s) (by decide))
            (blocks_featClose_blockInner f)
            (fun h => by simp at h)]
          rw [scanPairs_nil_of_none false featOpen featClose (nl ++ indent2)
            (by decide)]
          rw [List.map_nil]
      | cons b m =>
          simp only [List.isEmpty_cons, Bool.false_eq_true, if_false]
          rw [featureToXml_decomp]
          have hsplit : nl ++ (((i2s ++ (featOpen ++ (blockInner f ++ featClose))) ++
              (nl ++ featuresToXml (b :: m) indent2)) ++ (nl ++ indent2)) =
              (nl ++ i2s) ++ (featOpen ++ (blockInner f ++ (featClose ++
                (nl ++ (featuresToXml (b :: m) indent2 ++ (nl ++ indent2)))))) := by
            simp [List.append_assoc]
          rw [hsplit]
          rw [scanPairs_step false featOpen featClose (nl ++ i2s) (blockInner f)
            (nl ++ (featuresToXml (b :: m) indent2 ++ (nl ++ indent2)))
            (by decide) (by decide)
            (blocks_of_segChk csEq featOpen (nl ++ i2s) (by decide))
            (blocks_featClose_blockInner f)
            (fun h => by simp at h)]
          rw [ih]

theorem parse_blockInner (f : ImplementedFeature) (hf : cleanFeature f = true) :
    parseFeatureBlock (blockInner f) = some f := by
  unfold cleanFeature at hf
  simp only [Bool.and_eq_true, Bool.not_eq_true'] at hf
  obtain ⟨⟨⟨hne, hnameC⟩, hdescC⟩, hflC⟩ := hf
  unfold parseFeatureBlock
  rw [findFirstInline_name f (escape_all_noTerm _ (cleanField_noTerm _ hnameC))]
  rw [findFirstInline_desc f (escape_all_noTerm _ (cleanField_noTerm _ hdescC))]
  cases hfl : f.file_locations with
  | none =>
      rw [blockInner_fl_none f hfl]
      simp only []
      rw [unescape_trim_escape f.name (cleanField_trim _ hnameC)]
      rw [unescape_trim_escape f.description (cleanField_trim _ hdescC)]
      rw [hne]
      simp only [Bool.false_eq_true, if_false]
      rw [← hfl]
  | some locs =>
      rw [hfl] at hflC
      simp only [cleanFL, Bool.and_eq_true, Bool.not_eq_true'] at hflC
      obtain ⟨hlne, hlall⟩ := hflC
      have hlen : locs.length > 0 := by
        cases locs with
        | nil => simp [List.isEmpty] at hlne
        | cons a t => simp
      rw [blockInner_fl_some f locs hfl hlen]
      simp only []
      rw [unescape_trim_escape f.name (cleanField_trim _ hnameC)]
      rw [unescape_trim_escape f.description (cleanField_trim _ hdescC)]
      rw [show (nl ++ (List.intercalate nl (locs.map locLine) ++ (nl ++ i3s))).isEmpty
          = false from rfl]
      simp only [Bool.false_eq_true, if_false]
      unfold extractXmlElements
      rw [scan_locLines locs hlall]
      have hmap : List.map (fun v => unescapeXml (jsTrim v))
          (List.map escapeXml locs) = locs := by
        apply map_map_self
        intro a ha
        show unescapeXml (jsTrim (escapeXml a)) = a
        apply unescape_trim_escape
        apply cleanField_trim
        rw [List.all_eq_true] at hlall
        exact hlall a ha
      rw [hmap]
      rw [hlne]
      simp only [Bool.false_eq_true, if_false]
      rw [hne]
      simp only [Bool.false_eq_true, if_false]
      rw [← hfl]

/-! ### Extraction from a document holding a freshly rendered section -/

def midOf (F : List ImplementedFeature) : Str :=
  nl ++ (featuresToXml F indent2 ++ (nl ++ indent2))

theorem newSectionOf_decomp (F : List ImplementedFeature) :
    newSectionOf F = openTagOf implTag ++ (midOf F ++ closeTagOf implTag) := by
  unfold newSectionOf midOf implOpen implClose
  simp [List.append_assoc]

theorem blocks_implClose_mid (F : List ImplementedFeature) :
    Blocks ciEq implClose (midOf F) := by
  unfold midOf
  refine blocks_append ciEq implClose nl _
    (blocks_of_segChk ciEq implClose nl (by decide)) ?_
  refine blocks_append ciEq implClose (featuresToXml F indent2) _ ?_ ?_
  · exact blocks_featuresToXml ciEq _
      (fun x hx => blocks_ci_of_no_lt _ x hx)
      (blocks_of_segChk ciEq _ nameOpen (by decide))
      (blocks_of_segChk ciEq _ nameClose (by decide))
      (blocks_of_segChk ciEq _ descOpen (by decide))
      (blocks_of_segChk ciEq _ descClose (by decide))
      (blocks_of_segChk ciEq _ (openTagOf flTag) (by decide))
      (blocks_of_segChk ciEq _ (closeTagOf flTag) (by decide))
      (blocks_of_segChk ciEq _ (openTagOf locTag) (by decide))
      (blocks_of_segChk ciEq _ (closeTagOf locTag) (by decide))
      (blocks_of_segChk ciEq _ featOpen (by decide))
      (blocks_of_segChk ciEq _ featClose (by decide)) F
  · exact blocks_append ciEq implClose nl indent2
      (blocks_of_segChk ciEq implClose nl (by decide))
      (blocks_of_segChk ciEq implClose indent2 (by decide))

theorem extract_section_spliced (pre post : Str) (F : List ImplementedFeature)
    (hpre : Blocks ciEq implOpen pre) :
    extractXmlSection (pre ++ (newSectionOf F ++ post)) implTag =
      some (midOf F) := by
  rw [newSectionOf_decomp, List.append_assoc, List.append_assoc]
  exact extractXmlSection_eq implTag pre (midOf F) post hpre
    (blocks_implClose_mid F)

theorem filterMap_map_self {α β : Type} (p : β → Option α) (h : α → β)
    (l : List α) (hp : ∀ a ∈ l, p (h a) = some a) :
    (l.map h).filterMap p = l := by
  induction l with
  | nil => rfl
  | cons a rest ih =>
      rw [List.map_cons, List.filterMap_cons, hp a (by simp),
        ih (fun b hb => hp b (by simp [hb]))]

theorem extract_spliced (pre post : Str) (F : List ImplementedFeature)
    (hF : F.all cleanFeature = true)
    (hpre : Blocks ciEq implOpen pre) :
    extractImplementedFeatures (pre ++ (newSectionOf F ++ post)) = F := by
  unfold extractImplementedFeatures
  rw [extract_section_spliced pre post F hpre]
  simp only []
  rw [show (midOf F).isEmpty = false from rfl]
  simp only [Bool.false_eq_true, if_false]
  rw [show midOf F = nl ++ (featuresToXml F indent2 ++ (nl ++ indent2)) from rfl]
  rw [scan_feature_blocks F]
  apply filterMap_map_self
  intro a ha
  apply parse_blockInner
  rw [List.all_eq_true] at hF
  exact hF a ha

/-! ### The replacement string is taken literally -/

theorem jsReplSubst_no_dollar (repl : Str) (h : '$' ∉ repl) :
    ∀ m pre post, jsReplSubst repl m pre post = repl := by
  induction repl with
  | nil => intro m pre post; rfl
  | cons c rest ih =>
      intro m pre post
      unfold jsReplSubst
      rw [if_neg (fun hc => h (by simp [hc]))]
      rw [ih (fun hm => h (by simp [hm])) m pre post]

theorem no_dollar_append (x y : Str) (hx : '$' ∉ x) (hy : '$' ∉ y) :
    '$' ∉ x ++ y := by
  intro hmem
  rcases List.mem_append.mp hmem with h | h
  · exact hx h
  · exact hy h

theorem no_dollar_locLine (loc : Str) (h : '$' ∉ loc) : '$' ∉ locLine loc := by
  unfold locLine
  exact no_dollar_append _ _ (by decide)
    (no_dollar_append _ _ (by decide)
      (no_dollar_append _ _ (escape_no_dollar loc h) (by decide)))

theorem no_dollar_intercalate_locLines (locs : List Str)
    (h : ∀ loc ∈ locs, '$' ∉ loc) :
    '$' ∉ List.intercalate nl (locs.map locLine) := by
  induction locs with
  | nil => simp [List.intercalate]
  | cons a m ih =>
      cases m with
      | nil =>
          rw [List.map_cons, List.map_nil, intercalate_cons_str]
          simp only [List.isEmpty_nil, if_true]
          exact no_dollar_locLine a (h a (by simp))
      | cons b m2 =>
          rw [List.map_cons, List.map_cons, intercalate_cons_str]
          simp only [List.isEmpty_cons, Bool.false_eq_true, if_false]
          refine no_dollar_append _ _ (no_dollar_locLine a (h a (by simp))) ?_
          refine no_dollar_append _ _ (by decide) ?_
          rw [← List.map_cons]
          exact ih (fun loc hl => h loc (by simp [hl]))

theorem no_dollar_flPart (fl : Option (List Str))
    (h : ∀ l, fl = some l → ∀ loc ∈ l, '$' ∉ loc) : '$' ∉ flPart fl := by
  cases fl with
  | none => simp [flPart]
  | some locs =>
      unfold flPart
      by_cases hl : locs.length > 0
      · simp only [hl, if_true]
        refine no_dollar_append _ _ (by decide) ?_
        refine no_dollar_append _ _ (by decide) ?_
        refine no_dollar_append _ _ (by decide) ?_
        refine no_dollar_append _ _ (by decide) ?_
        refine no_dollar_append _ _
          (no_dollar_intercalate_locLines locs (h locs rfl)) ?_
        refine no_dollar_append _ _ (by decide) ?_
        exact no_dollar_append _ _ (by decide) (by decide)
      · simp only [hl, if_false]
        simp

theorem no_dollar_blockInner (f : ImplementedFeature)
    (hn : '$' ∉ f.name) (hd : '$' ∉ f.description)
    (hfl : ∀ l, f.file_locations = some l → ∀ loc ∈ l, '$' ∉ loc) :
    '$' ∉ blockInner f := by
  unfold blockInner
  exact no_dollar_append _ _ (by decide)
    (no_dollar_append _ _ (by decide)
      (no_dollar_append _ _ (by decide)
        (no_dollar_append _ _ (escape_no_dollar _ hn)
          (no_dollar_append _ _ (by decide)
            (no_dollar_append _ _ (by decide)
              (no_dollar_append _ _ (by decide)
                (no_dollar_append _ _ (by decide)
                  (no_dollar_append _ _ (escape_no_dollar _ hd)
                    (no_dollar_append _ _ (by decide)
                      (no_dollar_append _ _ (no_dollar_flPart _ hfl)
                        (no_dollar_append _ _ (by decide) (by decide))))))))))))

theorem cleanFeature_no_dollar_parts (f : ImplementedFeature)
    (hf : cleanFeature f = true) :
    '$' ∉ f.name ∧ '$' ∉ f.description ∧
      (∀ l, f.file_locations = some l → ∀ loc ∈ l, '$' ∉ loc) := by
  unfold cleanFeature at hf
  simp only [Bool.and_eq_true, Bool.not_eq_true'] at hf
  obtain ⟨⟨⟨_, hnameC⟩, hdescC⟩, hflC⟩ := hf
  refine ⟨cleanField_noDollar _ hnameC, cleanField_noDollar _ hdescC, ?_⟩
  intro l hl loc hloc
  rw [hl] at hflC
  simp only [cleanFL, Bool.and_eq_true] at hflC
  rw [List.all_eq_true] at hflC
  exact cleanField_noDollar loc (hflC.2 loc hloc)

theorem no_dollar_featureToXml (f : ImplementedFeature)
    (hf : cleanFeature f = true) : '$' ∉ featureToXml f indent2 := by
  rw [featureToXml_decomp]
  obtain ⟨hn, hd, hfl⟩ := cleanFeature_no_dollar_parts f hf
  exact no_dollar_append _ _ (by decide)
    (no_dollar_append _ _ (by decide)
      (no_dollar_append _ _ (no_dollar_blockInner f hn hd hfl) (by decide)))

theorem no_dollar_featuresToXml (F : List ImplementedFeature)
    (hF : F.all cleanFeature = true) : '$' ∉ featuresToXml F indent2 := by
  induction F with
  | nil => simp [featuresToXml, List.intercalate]
  | cons f rest ih =>
      rw [List.all_cons, Bool.and_eq_true] at hF
      rw [featuresToXml_cons]
      cases rest with
      | nil =>
          simp only [List.isEmpty_nil, if_true]
          exact no_dollar_featureToXml f hF.1
      | cons b m =>
          simp only [List.isEmpty_cons, Bool.false_eq_true, if_false]
          exact no_dollar_append _ _ (no_dollar_featureToXml f hF.1)
            (no_dollar_append _ _ (by decide) (ih hF.2))

theorem no_dollar_newSection (F : List ImplementedFeature)
    (hF : F.all cleanFeature = true) : '$' ∉ newSectionOf F := by
  unfold newSectionOf
  exact no_dollar_append _ _
    (no_dollar_append _ _
      (no_dollar_append _ _
        (no_dollar_append _ _ (by decide) (no_dollar_featuresToXml F hF))
        (by decide))
      (by decide))
    (by decide)

/-! ### Finding the spliced section behind a clean prefix -/

theorem findOcc_cons_shift (eqc : Char → Char → Bool) (pat : Str) (hp : pat ≠ [])
    (c : Char) (rest : Str) (h : eqc (pat.headD 'A') c = false) :
    findOcc eqc pat (c :: rest) = (findOcc eqc pat rest).map (· + 1) := by
  cases pat with
  | nil => exact absurd rfl hp
  | cons p ps =>
      have h' : eqc p c = false := h
      have hpre : prefixBy eqc (p :: ps) (c :: rest) = false := by
        simp only [prefixBy]
        rw [h', Bool.false_and]
      unfold findOcc
      rw [hpre]
      simp only [Bool.false_eq_true, if_false]
      cases rest <;> rfl

theorem safe_implOpen (c : Char)
    (hc : (List.range 22).all (fun k => (k == 0) ||
      !(ciEq ((openTagOf implTag).getD k 'A') c)) = true) :
    ∀ k, 1 ≤ k → k < (openTagOf implTag).length →
      ciEq ((openTagOf implTag).getD k 'A') c = false := by
  intro k h1 h2
  rw [List.all_eq_true] at hc
  have hk : k ∈ List.range 22 := List.mem_range.mpr (by
    rw [show (openTagOf implTag).length = 22 from by decide] at h2
    exact h2)
  have hck := hc k hk
  simp only [Bool.or_eq_true, beq_iff_eq, Bool.not_eq_true'] at hck
  rcases hck with h0 | hf
  · omega
  · exact hf

theorem findOcc_none_pre_ws (x ws : Str) (whead : Char) (wtail : Str)
    (hw : ws = whead :: wtail)
    (hx : findOcc ciEq (openTagOf implTag) x = none)
    (hwnone : findOcc ciEq (openTagOf implTag) ws = none)
    (hsafe : ∀ k, 1 ≤ k → k < (openTagOf implTag).length →
      ciEq ((openTagOf implTag).getD k 'A') whead = false) :
    findOcc ciEq (openTagOf implTag) (x ++ ws) = none := by
  subst hw
  rw [findOcc_append_none_safe ciEq _ whead wtail hsafe x hx, hwnone]
  rfl

theorem extractXmlSection_spliced_of_none (pre mid post : Str)
    (hpre : findOcc ciEq (openTagOf implTag) pre = none)
    (hmid : Blocks ciEq (closeTagOf implTag) mid) :
    extractXmlSection
      (pre ++ (openTagOf implTag ++ (mid ++ (closeTagOf implTag ++ post))))
      implTag = some mid := by
  unfold extractXmlSection
  have hy : openTagOf implTag ++ (mid ++ (closeTagOf implTag ++ post)) =
      '<' :: (implTag ++ ['>'] ++ (mid ++ (closeTagOf implTag ++ post))) := rfl
  have hfo : findOcc ciEq (openTagOf implTag)
      (pre ++ (openTagOf implTag ++ (mid ++ (closeTagOf implTag ++ post)))) =
      some pre.length := by
    rw [hy, findOcc_append_none_safe ciEq (openTagOf implTag) '<' _
      (safe_implOpen '<' (by decide)) pre hpre, ← hy,
      findOcc_prefix ciEq _ _ (prefixBy_refl ciEq ciEq_refl _ _)]
    simp
  rw [hfo]
  simp only []
  have hdrop : (pre ++ (openTagOf implTag ++ (mid ++ (closeTagOf implTag ++
      post)))).drop (pre.length + (openTagOf implTag).length) =
      mid ++ (closeTagOf implTag ++ post) := by
    rw [List.drop_append_eq_append_drop, List.drop_eq_nil_of_le (by omega),
      List.nil_append, Nat.add_sub_cancel_left, List.drop_left]
  rw [hdrop]
  have hfc : findOcc ciEq (closeTagOf implTag)
      (mid ++ (closeTagOf implTag ++ post)) = some mid.length := by
    rw [findOcc_append_of_blocks ciEq _ _ mid hmid,
      findOcc_prefix ciEq _ _ (prefixBy_refl ciEq ciEq_refl _ _)]
    simp
  rw [hfc]
  simp only []
  rw [List.take_left]

theorem extract_of_section_mid (s : Str) (F : List ImplementedFeature)
    (hF : F.all cleanFeature = true)
    (hsec : extractXmlSection s implTag = some (midOf F)) :
    extractImplementedFeatures s = F := by
  unfold extractImplementedFeatures
  rw [hsec]
  simp only []
  rw [show (midOf F).isEmpty = false from rfl]
  simp only [Bool.false_eq_true, if_false]
  rw [show midOf F = nl ++ (featuresToXml F indent2 ++ (nl ++ indent2)) from rfl]
  rw [scan_feature_blocks F]
  apply filterMap_map_self
  intro a ha
  apply parse_blockInner
  rw [List.all_eq_true] at hF
  exact hF a ha

theorem extract_spliced_of_none (pre post : Str) (F : List ImplementedFeature)
    (hF : F.all cleanFeature = true)
    (hpre : findOcc ciEq implOpen pre = none) :
    extractImplementedFeatures (pre ++ (newSectionOf F ++ post)) = F := by
  have hpre' : findOcc ciEq (openTagOf implTag) pre = none := hpre
  apply extract_of_section_mid _ F hF
  rw [newSectionOf_decomp F]
  have hsh : pre ++ ((openTagOf implTag ++ (midOf F ++ closeTagOf implTag)) ++
      post) = pre ++ (openTagOf implTag ++ (midOf F ++
        (closeTagOf implTag ++ post))) := by
    simp [List.append_assoc]
  rw [hsh]
  exact extractXmlSection_spliced_of_none pre (midOf F) post hpre'
    (blocks_implClose_mid F)

/-! ### Shapes of the update branches, and well-formed documents -/

theorem update_replace_shape (d : Str) (F : List ImplementedFeature) (i j : Nat)
    (hio : findOcc csEq implOpen d = some i)
    (hic : findOcc csEq implClose (d.drop (i + implOpen.length)) = some j)
    (hnd : '$' ∉ newSectionOf F) :
    updateImplementedFeaturesSection d F =
      d.take i ++ (newSectionOf F ++
        (d.drop (i + implOpen.length)).drop (j + implClose.length)) := by
  unfold updateImplementedFeaturesSection
  rw [hio]
  simp only []
  rw [hic]
  simp only []
  rw [jsReplSubst_no_dollar _ hnd]
  rw [List.append_assoc]

theorem update_insert_shape (d : Str) (F : List ImplementedFeature)
    (hio : findOcc csEq implOpen d = none) :
    updateImplementedFeaturesSection d F = updateInsert d (newSectionOf F) := by
  unfold updateImplementedFeaturesSection
  rw [hio]

theorem updateInsert_cc (d ns : Str) (idx : Nat)
    (hcc : findOcc csEq ccEnd d = some idx) :
    updateInsert d ns =
      d.take (idx + ccEnd.length) ++ nl ++ nl ++ indent2 ++ ns ++
        d.drop (idx + ccEnd.length) := by
  unfold updateInsert
  rw [hcc]

theorem updateInsert_ps (d ns : Str) (fb : Nat)
    (hcc : findOcc csEq ccEnd d = none)
    (hps : findOcc csEq psEnd d = some fb) :
    updateInsert d ns =
      d.take fb ++ indent2 ++ ns ++ nl ++ d.drop fb := by
  unfold updateInsert
  rw [hcc]
  simp only []
  rw [hps]

theorem updateInsert_none (d ns : Str)
    (hcc : findOcc csEq ccEnd d = none)
    (hps : findOcc csEq psEnd d = none) :
    updateInsert d ns = d := by
  unfold updateInsert
  rw [hcc]
  simp only []
  rw [hps]

/-- A document the section update handles faithfully: either the
case-sensitive section regex matches — and then no case-insensitive
`<implemented_features>` occurs before the match — or no case-sensitive
open tag exists, no case-insensitive one either, and one of the two
insertion anchors is present. -/
def wfDoc (d : Str) : Bool :=
  match findOcc csEq implOpen d with
  | some i =>
      match findOcc csEq implClose (d.drop (i + implOpen.length)) with
      | some _ => (findOcc ciEq implOpen (d.take i)).isNone
      | none => false
  | none =>
      (findOcc ciEq implOpen d).isNone &&
      ((findOcc csEq ccEnd d).isSome || (findOcc csEq psEnd d).isSome)

theorem extract_updateInsert_cc (d : Str) (F : List ImplementedFeature)
    (idx : Nat) (hF : F.all cleanFeature = true)
    (hcc : findOcc csEq ccEnd d = some idx)
    (hci : findOcc ciEq implOpen d = none) :
    extractImplementedFeatures (updateInsert d (newSectionOf F)) = F := by
  rw [updateInsert_cc d _ idx hcc]
  have hshape : d.take (idx + ccEnd.length) ++ nl ++ nl ++ indent2 ++
      newSectionOf F ++ d.drop (idx + ccEnd.length) =
      (d.take (idx + ccEnd.length) ++ (nl ++ (nl ++ indent2))) ++
        (newSectionOf F ++ d.drop (idx + ccEnd.length)) := by
    simp [List.append_assoc]
  rw [hshape]
  apply extract_spliced_of_none _ _ F hF
  apply findOcc_none_pre_ws _ _ '\n' ['\n', ' ', ' '] rfl
  · exact findOcc_take_none ciEq _ d _ hci
  · decide
  · exact safe_implOpen '\n' (by decide)

theorem extract_updateInsert_ps (d : Str) (F : List ImplementedFeature)
    (fb : Nat) (hF : F.all cleanFeature = true)
    (hcc : findOcc csEq ccEnd d = none)
    (hps : findOcc csEq psEnd d = some fb)
    (hci : findOcc ciEq implOpen d = none) :
    extractImplementedFeatures (updateInsert d (newSectionOf F)) = F := by
  rw [updateInsert_ps d _ fb hcc hps]
  have hshape : d.take fb ++ indent2 ++ newSectionOf F ++ nl ++ d.drop fb =
      (d.take fb ++ indent2) ++ (newSectionOf F ++ (nl ++ d.drop fb)) := by
    simp [List.append_assoc]
  rw [hshape]
  apply extract_spliced_of_none _ _ F hF
  apply findOcc_none_pre_ws _ _ ' ' [' '] rfl
  · exact findOcc_take_none ciEq _ d _ hci
  · decide
  · exact safe_implOpen ' ' (by decide)

/-- The central round trip: on a well-formed document, the section update
followed by extraction returns exactly the clean feature list that was
written. -/
theorem extract_update (d : Str) (F : List ImplementedFeature)
    (hwf : wfDoc d = true) (hF : F.all cleanFeature = true) :
    extractImplementedFeatures (updateImplementedFeaturesSection d F) = F := by
  unfold wfDoc at hwf
  cases hio : findOcc csEq implOpen d with
  | some i =>
      rw [hio] at hwf
      simp only [] at hwf
      cases hic : findOcc csEq implClose (d.drop (i + implOpen.length)) with
      | none =>
          rw [hic] at hwf
          simp at hwf
      | some j =>
          rw [hic] at hwf
          simp only [Option.isNone_iff_eq_none] at hwf
          rw [update_replace_shape d F i j hio hic (no_dollar_newSection F hF)]
          exact extract_spliced_of_none _ _ F hF hwf
  | none =>
      rw [hio] at hwf
      simp only [Bool.and_eq_true, Bool.or_eq_true, Option.isNone_iff_eq_none,
        Option.isSome_iff_exists] at hwf
      obtain ⟨hci, hanchor⟩ := hwf
      rw [update_insert_shape d F hio]
      rcases hanchor with ⟨idx, hcc⟩ | ⟨fb, hps⟩
      · exact extract_updateInsert_cc d F idx hF hcc hci
      · cases hcc : findOcc csEq ccEnd d with
        | some idx => exact extract_updateInsert_cc d F idx hF hcc hci
        | none => exact extract_updateInsert_ps d F fb hF hcc hps hci

/-! ### The claims -/

def reservedChars : List Char := ['&', '<', '>', '"', apos]

/-- C2: for every string built only from the five reserved characters
`& < > " '`, `unescapeXml (escapeXml s) = s`; moreover the ampersand is
escaped first (so `&` and `<` become `&amp;` and `&lt;`, with no double
escaping) and the ampersand entity is restored last (so `&amp;lt;`
unescapes to `&lt;`, not to `<`). -/
theorem c2_escape_unescape_roundtrip (s : Str)
    (h : s.all (fun c => c ∈ reservedChars) = true) :
    unescapeXml (escapeXml s) = s ∧
    escapeXml ['&', '<'] = "&amp;&lt;".data ∧
    unescapeXml "&amp;lt;".data = "&lt;".data :=
  ⟨unescapeXml_escapeXml s, by decide, by decide⟩

/-- C2 witness: the round trip evaluated on the string holding all five
reserved characters once. -/
theorem c2_escape_unescape_roundtrip_witness :
    (reservedChars.all (fun c => c ∈ reservedChars) = true) ∧
    unescapeXml (escapeXml reservedChars) = reservedChars :=
  ⟨by decide, (c2_escape_unescape_roundtrip reservedChars (by decide)).1⟩

/-- `file_locations` is absent or non-empty (the shape both SpecOutput
conversions preserve). -/
def flOk : Option (List Str) → Bool
  | some l => !l.isEmpty
  | none => true

theorem map_map_self2 {α β : Type} (g : β → α) (h : α → β) (l : List α)
    (hg : ∀ a ∈ l, g (h a) = a) : (l.map h).map g = l := by
  induction l with
  | nil => rfl
  | cons a rest ih =>
      rw [List.map_cons, List.map_cons, hg a (by simp),
        ih (fun b hb => hg b (by simp [hb]))]

theorem specConv_norm (fl : Option (List Str)) (h : flOk fl = true) :
    (match (match fl with
      | some l => if l.length > 0 then some l else none
      | none => none) with
      | some l => if l.length > 0 then some l else none
      | none => none) = fl := by
  cases fl with
  | none => rfl
  | some l =>
      simp only [flOk, Bool.not_eq_true'] at h
      have hlen : l.length > 0 := by
        cases l
        · simp [List.isEmpty] at h
        · simp
      simp [hlen]

theorem from_to_features (F : List ImplementedFeature)
    (hF : F.all (fun f => flOk f.file_locations) = true) :
    fromSpecOutputFeatures (toSpecOutputFeatures F) = F := by
  unfold toSpecOutputFeatures fromSpecOutputFeatures
  apply map_map_self2
  intro f hf
  have hfl : flOk f.file_locations = true := by
    rw [List.all_eq_true] at hF
    exact hF f hf
  show (⟨f.name, f.description,
    (match (match f.file_locations with
      | some l => if l.length > 0 then some l else none
      | none => none) with
      | some l => if l.length > 0 then some l else none
      | none => none)⟩ : ImplementedFeature) = f
  rw [specConv_norm f.file_locations hfl]

theorem to_from_features (G : List SpecOutputFeature)
    (hG : G.all (fun g => flOk g.file_locations) = true) :
    toSpecOutputFeatures (fromSpecOutputFeatures G) = G := by
  unfold toSpecOutputFeatures fromSpecOutputFeatures
  apply map_map_self2
  intro g hg
  have hfl : flOk g.file_locations = true := by
    rw [List.all_eq_true] at hG
    exact hG g hg
  show (⟨g.name, g.description,
    (match (match g.file_locations with
      | some l => if l.length > 0 then some l else none
      | none => none) with
      | some l => if l.length > 0 then some l else none
      | none => none)⟩ : SpecOutputFeature) = g
  rw [specConv_norm g.file_locations hfl]

/-- C8: whenever every record's `file_locations` is either absent or
non-empty, `fromSpecOutputFeatures` and `toSpecOutputFeatures` are mutually
inverse, field for field. -/
theorem c8_spec_output_roundtrip (F : List ImplementedFeature)
    (G : List SpecOutputFeature)
    (hF : F.all (fun f => flOk f.file_locations) = true)
    (hG : G.all (fun g => flOk g.file_locations) = true) :
    fromSpecOutputFeatures (toSpecOutputFeatures F) = F ∧
    toSpecOutputFeatures (fromSpecOutputFeatures G) = G :=
  ⟨from_to_features F hF, to_from_features G hG⟩

def c8wF : List ImplementedFeature :=
  [⟨['a'], ['b'], some [['x']]⟩, ⟨['c'], [], none⟩]

def c8wG : List SpecOutputFeature :=
  [⟨['d'], ['e'], some [['y'], ['z']]⟩]

/-- C8 witness: both round trips evaluated on concrete lists, one record
with locations and one without. -/
theorem c8_spec_output_roundtrip_witness :
    (c8wF.all (fun f => flOk f.file_locations) = true) ∧
    (c8wG.all (fun g => flOk g.file_locations) = true) ∧
    fromSpecOutputFeatures (toSpecOutputFeatures c8wF) = c8wF ∧
    toSpecOutputFeatures (fromSpecOutputFeatures c8wG) = c8wG := by
  refine ⟨by decide, by decide, ?_, ?_⟩
  · exact (c8_spec_output_roundtrip c8wF c8wG (by decide) (by decide)).1
  · exact (c8_spec_output_roundtrip c8wF c8wG (by decide) (by decide)).2

def c1d : Str := []

def c1F : List ImplementedFeature := [⟨['a'], [], none⟩]

/-- C1 counterexample: the empty document has no `implemented_features`
section (the claim admits such documents) and no insertion anchor either,
so the update is a no-op and extraction returns the empty list, not `F` —
even though the names of `F` are unique case-insensitively. -/
theorem c1_roundtrip_counterexample :
    (c1F.map (fun f => lowerStr f.name)).Nodup ∧
    extractImplementedFeatures c1d = [] ∧
    extractImplementedFeatures (updateImplementedFeaturesSection c1d c1F) ≠
      c1F :=
  ⟨by decide, by decide, by decide⟩

/-- C1 (amended): the round trip
`extractImplementedFeatures (updateImplementedFeaturesSection d F) = F`
holds under the claim's case-insensitive name-uniqueness hypothesis once
`d` is well-formed for the update (`wfDoc`: a case-sensitively matched
section not preceded by a case-insensitive open tag, or no section at all
plus an insertion anchor) and every feature of `F` is clean
(`cleanFeature`: non-empty trimmed single-line dollar-free fields). -/
theorem c1_roundtrip_amended (d : Str) (F : List ImplementedFeature)
    (huniq : (F.map (fun f => lowerStr f.name)).Nodup)
    (hwf : wfDoc d = true) (hF : F.all cleanFeature = true) :
    extractImplementedFeatures (updateImplementedFeaturesSection d F) = F :=
  extract_update d F hwf hF

def c1wd : Str := "<core_capabilities></core_capabilities>".data

def c1wF : List ImplementedFeature := [⟨['a'], ['b'], some [['c']]⟩]

set_option maxRecDepth 1000000 in
/-- C1 witness: the amended round trip evaluated on a document holding
only a `core_capabilities` anchor and one clean feature with a location. -/
theorem c1_roundtrip_amended_witness :
    (c1wF.map (fun f => lowerStr f.name)).Nodup ∧
    wfDoc c1wd = true ∧ c1wF.all cleanFeature = true ∧
    extractImplementedFeatures (updateImplementedFeaturesSection c1wd c1wF) =
      c1wF :=
  ⟨by decide, by decide, by decide,
    c1_roundtrip_amended c1wd c1wF (by decide) (by decide) (by decide)⟩

def c3d : Str := "<implemented_features></implemented_features>".data

def c3f : ImplementedFeature := ⟨[' ', 'a'], [], none⟩

set_option maxRecDepth 1000000 in
/-- C3 counterexample: a feature whose name carries a leading blank is
stored trimmed, so the duplicate check of a second identical add does not
fire (`" a"` versus the reparsed `"a"`) and the feature is appended a
second time: adding twice differs from adding once. -/
theorem c3_add_idempotent_counterexample :
    addImplementedFeature (addImplementedFeature c3d c3f) c3f ≠
      addImplementedFeature c3d c3f := by decide

/-- C3 (amended): provided the document is well-formed for the update,
the features already stored are clean, and the added feature is clean (in
particular trimmed, which restores the duplicate check):
a case-insensitive name collision makes the call a no-op (the document is
returned unchanged); without a collision the call writes the old list
with `f` appended at the end, so the resulting document parses to exactly
`extractImplementedFeatures d ++ [f]`; and the operation is idempotent —
adding the same feature twice yields the same document as adding it
once. -/
theorem c3_add_idempotent_amended (d : Str) (f : ImplementedFeature)
    (hwf : wfDoc d = true)
    (hext : (extractImplementedFeatures d).all cleanFeature = true)
    (hf : cleanFeature f = true) :
    ((extractImplementedFeatures d).any
        (fun g => lowerStr g.name == lowerStr f.name) = true →
      addImplementedFeature d f = d) ∧
    ((extractImplementedFeatures d).any
        (fun g => lowerStr g.name == lowerStr f.name) = false →
      addImplementedFeature d f =
        updateImplementedFeaturesSection d
          (extractImplementedFeatures d ++ [f]) ∧
      extractImplementedFeatures (addImplementedFeature d f) =
        extractImplementedFeatures d ++ [f]) ∧
    addImplementedFeature (addImplementedFeature d f) f =
      addImplementedFeature d f := by
  have hnoop : ((extractImplementedFeatures d).any
      (fun g => lowerStr g.name == lowerStr f.name) = true) →
      addImplementedFeature d f = d := by
    intro hdup
    unfold addImplementedFeature
    simp only []
    rw [hdup]
    simp
  have hwrite : ((extractImplementedFeatures d).any
      (fun g => lowerStr g.name == lowerStr f.name) = false) →
      addImplementedFeature d f =
        updateImplementedFeaturesSection d
          (extractImplementedFeatures d ++ [f]) := by
    intro hdup'
    unfold addImplementedFeature
    simp only []
    rw [hdup']
    simp
  have hclean : ((extractImplementedFeatures d) ++ [f]).all cleanFeature
      = true := by
    rw [List.all_append, hext]
    simp [hf]
  have hrt := extract_update d (extractImplementedFeatures d ++ [f]) hwf
    hclean
  refine ⟨hnoop, ?_, ?_⟩
  · intro hdup'
    refine ⟨hwrite hdup', ?_⟩
    rw [hwrite hdup']
    exact hrt
  · by_cases hdup : ((extractImplementedFeatures d).any
        (fun g => lowerStr g.name == lowerStr f.name)) = true
    · rw [hnoop hdup]
      exact hnoop hdup
    · have hdup' : ((extractImplementedFeatures d).any
          (fun g => lowerStr g.name == lowerStr f.name)) = false := by
        cases hx : ((extractImplementedFeatures d).any
            (fun g => lowerStr g.name == lowerStr f.name)) with
        | false => rfl
        | true => exact absurd hx hdup
      have hany : ((extractImplementedFeatures d ++ [f]).any
          (fun g => lowerStr g.name == lowerStr f.name)) = true := by
        rw [List.any_append]
        simp
      have h2 : addImplementedFeature
          (updateImplementedFeaturesSection d
            (extractImplementedFeatures d ++ [f])) f =
          updateImplementedFeaturesSection d
            (extractImplementedFeatures d ++ [f]) := by
        unfold addImplementedFeature
        simp only []
        rw [hrt, hany]
        simp
      rw [hwrite hdup']
      exact h2

def c3wf : ImplementedFeature := ⟨['a'], ['b'], none⟩

set_option maxRecDepth 1000000 in
/-- C3 witness: the amended theorem evaluated on an empty section document
and one clean feature — no collision, so the feature is appended at the
end and the second identical add changes nothing. -/
theorem c3_add_idempotent_amended_witness :
    wfDoc c3d = true ∧
    (extractImplementedFeatures c3d).all cleanFeature = true ∧
    cleanFeature c3wf = true ∧
    (extractImplementedFeatures c3d).any
      (fun g => lowerStr g.name == lowerStr c3wf.name) = false ∧
    extractImplementedFeatures (addImplementedFeature c3d c3wf) =
      extractImplementedFeatures c3d ++ [c3wf] ∧
    addImplementedFeature (addImplementedFeature c3d c3wf) c3wf =
      addImplementedFeature c3d c3wf :=
  ⟨by decide, by decide, by decide, by decide,
    ((c3_add_idempotent_amended c3d c3wf (by decide) (by decide)
      (by decide)).2.1 (by decide)).2,
    (c3_add_idempotent_amended c3d c3wf (by decide) (by decide)
      (by decide)).2.2⟩

theorem length_filter_not_eq {α : Type} (p : α → Bool) (l : List α)
    (h : (l.filter (fun a => !(p a))).length = l.length) : l.any p = false := by
  induction l with
  | nil => rfl
  | cons a rest ih =>
      rw [List.filter_cons] at h
      cases hpa : p a with
      | true =>
          rw [hpa] at h
          simp only [Bool.not_true, Bool.false_eq_true, if_false] at h
          have hle := List.length_filter_le (fun a => !(p a)) rest
          rw [List.length_cons] at h
          omega
      | false =>
          rw [hpa] at h
          simp only [Bool.not_false, if_true] at h
          rw [List.length_cons, List.length_cons] at h
          rw [List.any_cons, hpa, Bool.false_or]
          exact ih (by omega)

theorem any_filter_not {α : Type} (p : α → Bool) (l : List α) :
    (l.filter (fun a => !(p a))).any p = false := by
  cases hx : (l.filter (fun a => !(p a))).any p with
  | false => rfl
  | true =>
      rw [List.any_eq_true] at hx
      obtain ⟨a, ha, hpa⟩ := hx
      rw [List.mem_filter] at ha
      have hfalse : p a = false := by
        have h2 := ha.2
        simp only [Bool.not_eq_true'] at h2
        exact h2
      rw [hfalse] at hpa
      simp at hpa

theorem all_filter {α : Type} (p q : α → Bool) (l : List α)
    (h : l.all q = true) : (l.filter p).all q = true := by
  rw [List.all_eq_true] at h ⊢
  intro a ha
  exact h a (List.mem_filter.mp ha).1

theorem filter_not_of_any_false {α : Type} (p : α → Bool) (l : List α)
    (h : l.any p = false) : l.filter (fun a => !(p a)) = l := by
  induction l with
  | nil => rfl
  | cons a rest ih =>
      rw [List.any_cons] at h
      cases hpa : p a with
      | true =>
          rw [hpa] at h
          simp at h
      | false =>
          rw [hpa, Bool.false_or] at h
          rw [List.filter_cons]
          simp only [hpa, Bool.not_false, if_true]
          rw [ih h]

def c4d : Str :=
  "<IMPLEMENTED_FEATURES><feature><name>a</name></feature></IMPLEMENTED_FEATURES>".data

set_option maxRecDepth 1000000 in
/-- C4 counterexample: a section spelled in upper case is parsed by the
case-insensitive extractor but missed by the case-sensitive update, and
with no insertion anchor the removal leaves the document unchanged — the
feature still exists afterwards. -/
theorem c4_remove_then_has_counterexample :
    hasImplementedFeature (removeImplementedFeature c4d ['a']) ['a'] =
      true := by decide

/-- C4 (amended): on a document well-formed for the update whose stored
features are clean, a feature is gone after `removeImplementedFeature`;
and with no case-insensitive match the removal is a no-op on any
document. -/
theorem c4_remove_then_has_amended (d n : Str)
    (hwf : wfDoc d = true)
    (hext : (extractImplementedFeatures d).all cleanFeature = true) :
    hasImplementedFeature (removeImplementedFeature d n) n = false ∧
    ((extractImplementedFeatures d).any
        (fun f => lowerStr f.name == lowerStr n) = false →
      removeImplementedFeature d n = d) := by
  constructor
  · unfold removeImplementedFeature
    simp only []
    by_cases hlen : ((extractImplementedFeatures d).filter
        (fun f => !(lowerStr f.name == lowerStr n))).length =
        (extractImplementedFeatures d).length
    · rw [if_pos hlen]
      unfold hasImplementedFeature
      exact length_filter_not_eq _ _ hlen
    · rw [if_neg hlen]
      unfold hasImplementedFeature
      rw [extract_update d _ hwf (all_filter _ _ _ hext)]
      exact any_filter_not _ _
  · intro hno
    unfold removeImplementedFeature
    simp only []
    rw [filter_not_of_any_false _ _ hno]
    simp

def c4wd : Str :=
  "<implemented_features><feature><name>a</name></feature></implemented_features>".data

set_option maxRecDepth 1000000 in
/-- C4 witness: the amended theorem evaluated on a lower-case one-feature
document. -/
theorem c4_remove_then_has_amended_witness :
    wfDoc c4wd = true ∧
    (extractImplementedFeatures c4wd).all cleanFeature = true ∧
    hasImplementedFeature (removeImplementedFeature c4wd ['a']) ['a'] =
      false :=
  ⟨by decide, by decide,
    (c4_remove_then_has_amended c4wd ['a'] (by decide) (by decide)).1⟩

def c5d : Str :=
  "<implemented_features><feature><name>a</name><description>$&apos;</description></feature></implemented_features>".data

def c5u : PartialImplementedFeature := ⟨none, none, none⟩

set_option maxRecDepth 1000000 in
/-- C5 counterexample: a stored description containing a dollar sign
(here the two characters dollar and apostrophe, serialised as
`$&apos;`) triggers the replacement-string escapes of
`String.prototype.replace` when the section is rewritten, so an update
that supplies no field at all still corrupts the description: afterwards
no feature named `a` carries the original description. -/
theorem c5_update_partial_counterexample :
    ((extractImplementedFeatures c5d).any
      (fun f => lowerStr f.name == lowerStr ['a'] &&
        f.description == ['$', apos]) = true) ∧
    ((extractImplementedFeatures
        (updateImplementedFeature c5d ['a'] c5u)).any
      (fun f => lowerStr f.name == lowerStr ['a'] &&
        f.description == ['$', apos]) = false) :=
  ⟨by decide, by decide⟩

/-- C5 (amended): with no case-insensitive match the update is a no-op on
any document; with a match, on a document well-formed for the update and
when the merged features are clean, the resulting document parses to
exactly the old list with `mergeFeature f u` in place of each matched
record — `mergeFeature` keeps every field `u` does not supply and keeps
the name unless `u.name` is some. -/
theorem c5_update_partial_amended (d n : Str) (u : PartialImplementedFeature)
    (hwf : wfDoc d = true)
    (hclean : ((extractImplementedFeatures d).map (fun f =>
      if lowerStr f.name == lowerStr n then mergeFeature f u else f)).all
        cleanFeature = true) :
    ((extractImplementedFeatures d).any
        (fun f => lowerStr f.name == lowerStr n) = false →
      updateImplementedFeature d n u = d) ∧
    ((extractImplementedFeatures d).any
        (fun f => lowerStr f.name == lowerStr n) = true →
      extractImplementedFeatures (updateImplementedFeature d n u) =
        (extractImplementedFeatures d).map (fun f =>
          if lowerStr f.name == lowerStr n then mergeFeature f u else f)) := by
  constructor
  · intro hno
    unfold updateImplementedFeature
    simp only []
    rw [hno, if_neg (by decide)]
  · intro hyes
    unfold updateImplementedFeature
    simp only []
    rw [hyes, if_pos rfl]
    exact extract_update d _ hwf hclean

def c5wd : Str :=
  "<implemented_features><feature><name>a</name><description>b</description></feature></implemented_features>".data

def c5wu : PartialImplementedFeature := ⟨none, some ['c'], none⟩

set_option maxRecDepth 1000000 in
/-- C5 witness: the amended theorem's match case evaluated on a
one-feature document with a description-only partial update. -/
theorem c5_update_partial_amended_witness :
    wfDoc c5wd = true ∧
    ((extractImplementedFeatures c5wd).map (fun f =>
      if lowerStr f.name == lowerStr ['a'] then mergeFeature f c5wu else f)).all
        cleanFeature = true ∧
    extractImplementedFeatures (updateImplementedFeature c5wd ['a'] c5wu) =
      (extractImplementedFeatures c5wd).map (fun f =>
        if lowerStr f.name == lowerStr ['a'] then mergeFeature f c5wu else f) :=
  ⟨by decide, by decide,
    (c5_update_partial_amended c5wd ['a'] c5wu (by decide) (by decide)).2
      (by decide)⟩

/-- The case-sensitive section regex of the update matches somewhere in
`d` (`sectionRegex.test(specContent)`). -/
def sectionMatches (d : Str) : Bool :=
  match findOcc csEq implOpen d with
  | some i => (findOcc csEq implClose (d.drop (i + implOpen.length))).isSome
  | none => false

theorem update_no_section (d : Str) (F : List ImplementedFeature)
    (h : sectionMatches d = false) :
    updateImplementedFeaturesSection d F = updateInsert d (newSectionOf F) := by
  unfold sectionMatches at h
  unfold updateImplementedFeaturesSection
  cases hio : findOcc csEq implOpen d with
  | none => rfl
  | some i =>
      rw [hio] at h
      simp only [] at h
      cases hic : findOcc csEq implClose (d.drop (i + implOpen.length)) with
      | some j =>
          rw [hic] at h
          simp at h
      | none =>
          simp only []
          rw [hic]

theorem update_replace_shape_raw (d : Str) (F : List ImplementedFeature)
    (i j : Nat) (hio : findOcc csEq implOpen d = some i)
    (hic : findOcc csEq implClose (d.drop (i + implOpen.length)) = some j) :
    updateImplementedFeaturesSection d F =
      d.take i ++ jsReplSubst (newSectionOf F)
        (implOpen ++ (d.drop (i + implOpen.length)).take j ++ implClose)
        (d.take i)
        ((d.drop (i + implOpen.length)).drop (j + implClose.length)) ++
      (d.drop (i + implOpen.length)).drop (j + implClose.length) := by
  unfold updateImplementedFeaturesSection
  rw [hio]
  simp only []
  rw [hic]

theorem prefixBy_cs_take (pat : Str) : ∀ s, prefixBy csEq pat s = true →
    s.take pat.length = pat := by
  induction pat with
  | nil =>
      intro s _
      rfl
  | cons p ps ih =>
      intro s h
      cases s with
      | nil => simp [prefixBy] at h
      | cons c cs =>
          simp only [prefixBy, Bool.and_eq_true] at h
          have hpc : p = c := by
            have h1 := h.1
            simp [csEq] at h1
            exact h1
          rw [List.length_cons, List.take_succ_cons, ih cs h.2, hpc]

theorem occurs_cs_split (pat s : Str) (i : Nat)
    (h : prefixBy csEq pat (s.drop i) = true) :
    s = s.take i ++ (pat ++ s.drop (i + pat.length)) := by
  have h1 : (s.drop i).take pat.length = pat := prefixBy_cs_take pat _ h
  calc s = s.take i ++ s.drop i := (List.take_append_drop i s).symm
    _ = s.take i ++ ((s.drop i).take pat.length ++
        (s.drop i).drop pat.length) := by
        rw [List.take_append_drop pat.length (s.drop i)]
    _ = s.take i ++ (pat ++ s.drop (i + pat.length)) := by
        rw [h1, List.drop_drop]

/-- C6: the section update follows the ordered fallback policy, first
match wins: (1) the case-sensitively matched section — at the leftmost
occurrence of its open tag, with the close tag at its leftmost occurrence
after it — is replaced in place; (2) else the new section goes right
after the first `</core_capabilities>`; (3) else right before the first
`</project_specification>`; (4) else the document is returned unchanged.
The operation is a total function of the document and features — it can
never throw. -/
theorem c6_ordered_policy (d : Str) (F : List ImplementedFeature) :
    (∀ i j, findOcc csEq implOpen d = some i →
      findOcc csEq implClose (d.drop (i + implOpen.length)) = some j →
      FirstOcc csEq implOpen d i ∧
      FirstOcc csEq implClose (d.drop (i + implOpen.length)) j ∧
      updateImplementedFeaturesSection d F =
        d.take i ++ jsReplSubst (newSectionOf F)
          (implOpen ++ (d.drop (i + implOpen.length)).take j ++ implClose)
          (d.take i)
          ((d.drop (i + implOpen.length)).drop (j + implClose.length)) ++
        (d.drop (i + implOpen.length)).drop (j + implClose.length)) ∧
    (∀ idx, sectionMatches d = false →
      findOcc csEq ccEnd d = some idx →
      FirstOcc csEq ccEnd d idx ∧
      updateImplementedFeaturesSection d F =
        d.take (idx + ccEnd.length) ++ nl ++ nl ++ indent2 ++
          newSectionOf F ++ d.drop (idx + ccEnd.length)) ∧
    (∀ fb, sectionMatches d = false →
      findOcc csEq ccEnd d = none →
      findOcc csEq psEnd d = some fb →
      FirstOcc csEq psEnd d fb ∧
      updateImplementedFeaturesSection d F =
        d.take fb ++ indent2 ++ newSectionOf F ++ nl ++ d.drop fb) ∧
    (sectionMatches d = false →
      findOcc csEq ccEnd d = none →
      findOcc csEq psEnd d = none →
      updateImplementedFeaturesSection d F = d) := by
  refine ⟨?_, ?_, ?_, ?_⟩
  · intro i j hio hic
    exact ⟨findOcc_eq_some csEq implOpen d i hio,
      findOcc_eq_some csEq implClose _ j hic,
      update_replace_shape_raw d F i j hio hic⟩
  · intro idx hs hcc
    refine ⟨findOcc_eq_some csEq ccEnd d idx hcc, ?_⟩
    rw [update_no_section d F hs]
    exact updateInsert_cc d _ idx hcc
  · intro fb hs hcc hps
    refine ⟨findOcc_eq_some csEq psEnd d fb hps, ?_⟩
    rw [update_no_section d F hs]
    exact updateInsert_ps d _ fb hcc hps
  · intro hs hcc hps
    rw [update_no_section d F hs]
    exact updateInsert_none d _ hcc hps

def c6wd : Str := "<core_capabilities>x</core_capabilities>".data

set_option maxRecDepth 100000 in
/-- C6 witness: rule (2) evaluated — a document holding only a
`core_capabilities` block gets the new section right after its closing
tag. -/
theorem c6_ordered_policy_witness :
    sectionMatches c6wd = false ∧
    findOcc csEq ccEnd c6wd = some 20 ∧
    updateImplementedFeaturesSection c6wd [] =
      c6wd.take (20 + ccEnd.length) ++ nl ++ nl ++ indent2 ++
        newSectionOf [] ++ c6wd.drop (20 + ccEnd.length) :=
  ⟨by decide, by decide,
    ((c6_ordered_policy c6wd []).2.1 20 (by decide) (by decide)).2⟩

/-- C10: the update never touches text outside the affected span. In the
replace branch the document is exactly prefix ++ matched span ++ suffix
with the matched span at the regex match, and the result keeps that
prefix and suffix verbatim around the substituted text; in either
insertion branch the result is the original document's prefix and suffix
around the insertion point with only the inserted text between them. -/
theorem c10_frame (d : Str) (F : List ImplementedFeature) :
    (∀ i j, findOcc csEq implOpen d = some i →
      findOcc csEq implClose (d.drop (i + implOpen.length)) = some j →
      d.take i ++ (implOpen ++ ((d.drop (i + implOpen.length)).take j ++
        (implClose ++ (d.drop (i + implOpen.length)).drop
          (j + implClose.length)))) = d ∧
      (∃ mid2, updateImplementedFeaturesSection d F =
        d.take i ++ mid2 ++
          (d.drop (i + implOpen.length)).drop (j + implClose.length))) ∧
    (∀ idx, sectionMatches d = false →
      findOcc csEq ccEnd d = some idx →
      d.take (idx + ccEnd.length) ++ d.drop (idx + ccEnd.length) = d ∧
      (∃ ins, updateImplementedFeaturesSection d F =
        d.take (idx + ccEnd.length) ++ ins ++
          d.drop (idx + ccEnd.length))) ∧
    (∀ fb, sectionMatches d = false →
      findOcc csEq ccEnd d = none →
      findOcc csEq psEnd d = some fb →
      d.take fb ++ d.drop fb = d ∧
      (∃ ins, updateImplementedFeaturesSection d F =
        d.take fb ++ ins ++ d.drop fb)) := by
  refine ⟨?_, ?_, ?_⟩
  · intro i j hio hic
    constructor
    · have ho := (findOcc_eq_some csEq implOpen d i hio).1
      have hc := (findOcc_eq_some csEq implClose _ j hic).1
      have h1 : d = d.take i ++ (implOpen ++ d.drop (i + implOpen.length)) :=
        occurs_cs_split implOpen d i ho
      have h2 : d.drop (i + implOpen.length) =
          (d.drop (i + implOpen.length)).take j ++
            (implClose ++ (d.drop (i + implOpen.length)).drop
              (j + implClose.length)) :=
        occurs_cs_split implClose (d.drop (i + implOpen.length)) j hc
      calc d.take i ++ (implOpen ++ ((d.drop (i + implOpen.length)).take j ++
            (implClose ++ (d.drop (i + implOpen.length)).drop
              (j + implClose.length)))) =
          d.take i ++ (implOpen ++ d.drop (i + implOpen.length)) := by
            rw [← h2]
        _ = d := h1.symm
    · exact ⟨jsReplSubst (newSectionOf F)
        (implOpen ++ (d.drop (i + implOpen.length)).take j ++ implClose)
        (d.take i)
        ((d.drop (i + implOpen.length)).drop (j + implClose.length)),
        update_replace_shape_raw d F i j hio hic⟩
  · intro idx hs hcc
    refine ⟨List.take_append_drop _ d, ⟨nl ++ nl ++ indent2 ++ newSectionOf F,
      ?_⟩⟩
    rw [update_no_section d F hs, updateInsert_cc d _ idx hcc]
    simp [List.append_assoc]
  · intro fb hs hcc hps
    refine ⟨List.take_append_drop _ d, ⟨indent2 ++ newSectionOf F ++ nl, ?_⟩⟩
    rw [update_no_section d F hs, updateInsert_ps d _ fb hcc hps]
    simp [List.append_assoc]

set_option maxRecDepth 1000000 in
/-- C10 witness: the replace branch frame evaluated on a one-feature
document — the matched span reconstitutes the document and the update
changes only the span. -/
theorem c10_frame_witness :
    c4wd.take 0 ++ (implOpen ++ ((c4wd.drop (0 + implOpen.length)).take 33 ++
      (implClose ++ (c4wd.drop (0 + implOpen.length)).drop
        (33 + implClose.length)))) = c4wd ∧
    (∃ mid2, updateImplementedFeaturesSection c4wd [] =
      c4wd.take 0 ++ mid2 ++
        (c4wd.drop (0 + implOpen.length)).drop (33 + implClose.length)) :=
  (c10_frame c4wd []).1 0 33 (by decide) (by decide)

theorem ne_nil_of_isEmpty_false {α : Type} (l : List α)
    (h : l.isEmpty = false) : l ≠ [] := by
  cases l
  · simp [List.isEmpty] at h
  · simp

theorem nil_of_isEmpty_true {α : Type} (l : List α)
    (h : l.isEmpty = true) : l = [] := by
  cases l
  · rfl
  · simp [List.isEmpty] at h

theorem extract_no_section (d : Str)
    (h : extractXmlSection d implTag = none) :
    extractImplementedFeatures d = [] := by
  unfold extractImplementedFeatures
  rw [h]

theorem parseFeatureBlock_inv (b : Str) (f : ImplementedFeature)
    (h : parseFeatureBlock b = some f) :
    f.name = (match findFirstInline nameOpen nameClose b with
      | some raw => unescapeXml (jsTrim raw)
      | none => []) ∧
    f.name.isEmpty = false ∧
    f.description = (match findFirstInline descOpen descClose b with
      | some raw => unescapeXml (jsTrim raw)
      | none => []) ∧
    f.file_locations = (match extractXmlSection b flTag with
      | some sec =>
          if sec.isEmpty then none
          else if (extractXmlElements sec locTag).isEmpty then none
          else some (extractXmlElements sec locTag)
      | none => none) := by
  unfold parseFeatureBlock at h
  simp only [] at h
  split at h
  · cases h
  · rename_i hcond
    injection h with h2
    subst h2
    refine ⟨rfl, ?_, rfl, ?_⟩
    · cases hx : (match findFirstInline nameOpen nameClose b with
        | some raw => unescapeXml (jsTrim raw)
        | none => ([] : Str)).isEmpty with
      | false => rfl
      | true => exact absurd hx hcond
    · show (match (match extractXmlSection b flTag with
        | some sec => if sec.isEmpty then none
            else some (extractXmlElements sec locTag)
        | none => none) with
        | some l => if l.isEmpty then none else some l
        | none => none) = _
      cases hsec : extractXmlSection b flTag with
      | none => rfl
      | some sec =>
          simp only []
          cases hse : sec.isEmpty with
          | true => rfl
          | false =>
              simp only [Bool.false_eq_true, if_false]

theorem fl_match_some (b : Str) (l : List Str)
    (h : (match extractXmlSection b flTag with
      | some sec =>
          if sec.isEmpty then none
          else if (extractXmlElements sec locTag).isEmpty then none
          else some (extractXmlElements sec locTag)
      | none => none) = some l) :
    ∃ sec, extractXmlSection b flTag = some sec ∧
      extractXmlElements sec locTag = l ∧ l ≠ [] := by
  cases hsec : extractXmlSection b flTag with
  | none =>
      rw [hsec] at h
      cases h
  | some sec =>
      rw [hsec] at h
      simp only [] at h
      cases hse : sec.isEmpty with
      | true =>
          rw [hse] at h
          simp at h
      | false =>
          rw [hse] at h
          simp only [Bool.false_eq_true, if_false] at h
          cases he : (extractXmlElements sec locTag).isEmpty with
          | true =>
              rw [he] at h
              simp at h
          | false =>
              rw [he] at h
              simp only [Bool.false_eq_true, if_false] at h
              injection h with h2
              refine ⟨sec, rfl, h2, ?_⟩
              rw [← h2]
              exact ne_nil_of_isEmpty_false _ he

theorem fl_match_none (b : Str)
    (h : (match extractXmlSection b flTag with
      | some sec =>
          if sec.isEmpty then none
          else if (extractXmlElements sec locTag).isEmpty then none
          else some (extractXmlElements sec locTag)
      | none => none) = none) :
    extractXmlSection b flTag = none ∨
      ∃ sec, extractXmlSection b flTag = some sec ∧
        (sec.isEmpty = true ∨ extractXmlElements sec locTag = []) := by
  cases hsec : extractXmlSection b flTag with
  | none => exact Or.inl rfl
  | some sec =>
      rw [hsec] at h
      simp only [] at h
      refine Or.inr ⟨sec, rfl, ?_⟩
      cases hse : sec.isEmpty with
      | true => exact Or.inl rfl
      | false =>
          rw [hse] at h
          simp only [Bool.false_eq_true, if_false] at h
          cases he : (extractXmlElements sec locTag).isEmpty with
          | true => exact Or.inr (nil_of_isEmpty_true _ he)
          | false =>
              rw [he] at h
              simp only [Bool.false_eq_true, if_false] at h
              cases h

/-- C7: the extractor returns the empty list when no (case-insensitive)
`implemented_features` section is found; every returned feature has a
non-empty name and an absent-or-non-empty location list; a parsed block's
name and description are the trimmed, unescaped inline tag contents, the
description defaults to the empty string when its tag is missing, the
location list is exactly the parsed `<location>` entries of an existing
`<file_locations>` sub-section when present, and a block whose name is
missing or empty after trimming and unescaping parses to nothing (is
dropped). -/
theorem c7_extractor (d : Str) :
    (extractXmlSection d implTag = none → extractImplementedFeatures d = []) ∧
    (∀ f, f ∈ extractImplementedFeatures d →
      f.name ≠ [] ∧ (∀ l, f.file_locations = some l → l ≠ [])) ∧
    (∀ b f, parseFeatureBlock b = some f →
      ((findFirstInline descOpen descClose b = none → f.description = []) ∧
       (∀ raw, findFirstInline nameOpen nameClose b = some raw →
         f.name = unescapeXml (jsTrim raw)) ∧
       (∀ raw, findFirstInline descOpen descClose b = some raw →
         f.description = unescapeXml (jsTrim raw)) ∧
       (∀ l, f.file_locations = some l →
         ∃ sec, extractXmlSection b flTag = some sec ∧
           extractXmlElements sec locTag = l ∧ l ≠ []) ∧
       (f.file_locations = none →
         extractXmlSection b flTag = none ∨
           ∃ sec, extractXmlSection b flTag = some sec ∧
             (sec.isEmpty = true ∨ extractXmlElements sec locTag = [])))) ∧
    (∀ b, (findFirstInline nameOpen nameClose b = none ∨
        (∃ raw, findFirstInline nameOpen nameClose b = some raw ∧
          unescapeXml (jsTrim raw) = [])) →
      parseFeatureBlock b = none) := by
  refine ⟨extract_no_section d, ?_, ?_, ?_⟩
  · intro f hf
    unfold extractImplementedFeatures at hf
    cases hsec : extractXmlSection d implTag with
    | none =>
        rw [hsec] at hf
        simp at hf
    | some sec =>
        rw [hsec] at hf
        simp only [] at hf
        by_cases hse : sec.isEmpty = true
        · rw [if_pos hse] at hf
          simp at hf
        · rw [if_neg hse] at hf
          obtain ⟨b, _, hparse⟩ := List.mem_filterMap.mp hf
          obtain ⟨_, hnameNE, _, hfl⟩ := parseFeatureBlock_inv b f hparse
          constructor
          · intro hnil
            rw [hnil] at hnameNE
            simp [List.isEmpty] at hnameNE
          · intro l hl
            rw [hl] at hfl
            obtain ⟨s2, _, h2, h3⟩ := fl_match_some b l hfl.symm
            exact h3
  · intro b f hparse
    obtain ⟨hname, _, hdesc, hfl⟩ := parseFeatureBlock_inv b f hparse
    refine ⟨?_, ?_, ?_, ?_, ?_⟩
    · intro hno
      rw [hno] at hdesc
      exact hdesc
    · intro raw hr
      rw [hr] at hname
      exact hname
    · intro raw hr
      rw [hr] at hdesc
      exact hdesc
    · intro l hl
      rw [hl] at hfl
      exact fl_match_some b l hfl.symm
    · intro hl
      rw [hl] at hfl
      exact fl_match_none b hfl.symm
  · intro b hcase
    unfold parseFeatureBlock
    simp only []
    rcases hcase with hn | ⟨raw, hr, he⟩
    · rw [hn]
      simp
    · rw [hr]
      simp only []
      rw [he]
      simp

/-- C7 witness: the section-absent case evaluated on a one-character
document. -/
theorem c7_extractor_witness :
    extractXmlSection ['x'] implTag = none ∧
    extractImplementedFeatures ['x'] = [] :=
  ⟨by decide, (c7_extractor ['x']).1 (by decide)⟩

theorem drop_append_len {α : Type} (x y : List α) (m : Nat) :
    (x ++ y).drop (x.length + m) = y.drop m := by
  rw [List.drop_append_eq_append_drop, List.drop_eq_nil_of_le (by omega),
    List.nil_append, Nat.add_sub_cancel_left]

/-- C9: when the only `implemented_features` section of the document is a
letter-case variant of the tag (no case-sensitive open tag anywhere) and a
`</core_capabilities>` anchor is present before it, the update does not
touch the variant section: it inserts a second, lowercase section after
the anchor, and the result holds two case-insensitive occurrences of the
open tag — the extractor's notion of a section. -/
theorem c9_case_mismatch_two_sections (d : Str) (F : List ImplementedFeature)
    (idx k : Nat)
    (hio : findOcc csEq implOpen d = none)
    (hk : findOcc ciEq implOpen d = some k)
    (hcc : findOcc csEq ccEnd d = some idx)
    (hge : idx + ccEnd.length ≤ k) :
    updateImplementedFeaturesSection d F =
      d.take (idx + ccEnd.length) ++ nl ++ nl ++ indent2 ++ newSectionOf F ++
        d.drop (idx + ccEnd.length) ∧
    ∃ p1 p2, p1 < p2 ∧
      OccursAt ciEq implOpen (updateImplementedFeaturesSection d F) p1 ∧
      OccursAt ciEq implOpen (updateImplementedFeaturesSection d F) p2 := by
  have hsm : sectionMatches d = false := by
    unfold sectionMatches
    rw [hio]
  have hshape : updateImplementedFeaturesSection d F =
      d.take (idx + ccEnd.length) ++ nl ++ nl ++ indent2 ++ newSectionOf F ++
        d.drop (idx + ccEnd.length) := by
    rw [update_no_section d F hsm]
    exact updateInsert_cc d _ idx hcc
  refine ⟨hshape, ?_⟩
  have hre : updateImplementedFeaturesSection d F =
      (d.take (idx + ccEnd.length) ++ (nl ++ (nl ++ indent2))) ++
        (newSectionOf F ++ d.drop (idx + ccEnd.length)) := by
    rw [hshape]
    simp [List.append_assoc]
  have hassoc : newSectionOf F ++ d.drop (idx + ccEnd.length) =
      implOpen ++ (nl ++ (featuresToXml F indent2 ++ (nl ++ (indent2 ++
        (implClose ++ d.drop (idx + ccEnd.length)))))) := by
    unfold newSectionOf
    simp [List.append_assoc]
  refine ⟨(d.take (idx + ccEnd.length) ++ (nl ++ (nl ++ indent2))).length,
    (d.take (idx + ccEnd.length) ++ (nl ++ (nl ++ indent2))).length +
      ((newSectionOf F).length + (k - (idx + ccEnd.length))), ?_, ?_, ?_⟩
  · have h0 : 0 < (newSectionOf F).length := by
      rw [newSectionOf_decomp, List.length_append]
      have h22 : 0 < (openTagOf implTag).length := by decide
      omega
    omega
  · unfold OccursAt
    rw [hre, List.drop_left, hassoc]
    exact prefixBy_refl ciEq ciEq_refl _ _
  · unfold OccursAt
    rw [hre, drop_append_len, drop_append_len, List.drop_drop,
      Nat.add_sub_cancel' hge]
    exact (findOcc_eq_some ciEq implOpen d k hk).1

def c9wd : Str :=
  ("<core_capabilities>x</core_capabilities>\n" ++
    "<IMPLEMENTED_FEATURES></IMPLEMENTED_FEATURES>").data

set_option maxRecDepth 1000000 in
/-- C9 witness: the mismatch evaluated on a document whose only section is
upper-case, with the anchor at index 20 and the variant at index 41. -/
theorem c9_case_mismatch_two_sections_witness :
    updateImplementedFeaturesSection c9wd [] =
      c9wd.take (20 + ccEnd.length) ++ nl ++ nl ++ indent2 ++
        newSectionOf [] ++ c9wd.drop (20 + ccEnd.length) ∧
    ∃ p1 p2, p1 < p2 ∧
      OccursAt ciEq implOpen (updateImplementedFeaturesSection c9wd []) p1 ∧
      OccursAt ciEq implOpen (updateImplementedFeaturesSection c9wd []) p2 :=
  c9_case_mismatch_two_sections c9wd [] 20 41 (by decide) (by decide)
    (by decide) (by decide)

end XmlExtractor
